import Mathlib

/-!
# Verification of the test-data generator core

A shallow embedding of the dataset derivation pipeline of the
`td-test-data-generator` repository (`src/generatorUtilities.mjs`,
`src/generators.mjs`, `src/colspecUtilities.mjs`), together with proofs
about the embedded definitions.

Modelling conventions:

* JavaScript numbers are modelled as rationals (`ℚ`); the arithmetic the
  program performs (adding offsets of the form `round(r*1000) * 1e-7`,
  `±180` shifts) is exact on the inputs the claims quantify over.
* Every call to `Math.random()` becomes an explicit argument (a rational
  draw, or an oracle function indexed by the position of the call).
* External collaborators (the `change-case` functions `pascalCase` and
  `snakeCase`, JS number-to-string conversion, `Date` parsing/formatting,
  the faker value generator, and the random reordering produced by
  `Array.sort` with a random comparator) are passed in as function
  parameters; theorems state the hypotheses they rely on explicitly.
* Operations that would throw a `TypeError` in JavaScript (reading a
  property of `undefined`) are modelled with `Option`: `none` is a crash.
* Sparse JavaScript arrays (arrays with holes, as produced by index
  assignment into a fresh `[]`) are modelled as `List (Option _)`, a
  hole being `none`.
-/

namespace TdGen

/-- A JavaScript scalar cell value: either a number or a string
(the two runtime types the generated tables contain; `convertToCsv`
branches on `typeof val === 'number'`). -/
inductive JsVal where
  | num (q : ℚ)
  | str (s : String)
deriving DecidableEq, Repr

/-- JS index assignment `l[i] = v` into a possibly-sparse array, where `v`
itself may be `undefined` (`none`): assigning past the end extends the
array with holes. -/
def jsSet (l : List (Option β)) (i : ℕ) (v : Option β) : List (Option β) :=
  if i < l.length then l.set i v
  else l ++ List.replicate (i - l.length) none ++ [v]

/-- JS index read `l[i]` from a possibly-sparse array: out of range or a
hole gives `undefined` (`none`). -/
def jsGet (l : List (Option β)) (i : ℕ) : Option β :=
  (l[i]?).join

/-- `randomItem` (generatorUtilities.mjs line 15):
`items[Math.floor(Math.random() * items.length)]`.  The draw `r` is the
`Math.random()` result; an out-of-range index gives `undefined`. -/
def randomItem (items : List α) (r : ℚ) : Option α :=
  items[Int.toNat ⌊r * (items.length : ℚ)⌋]?

/-- `mangleName` (generatorUtilities.mjs line 23):
`snakeCase(randomItem(variants))`, with `snakeCase` (from the external
`change-case` package) passed in as `sc`. -/
def mangleName (sc : String → String) (variants : List String) (r : ℚ) : Option String :=
  (randomItem variants r).map sc

/-- `transpose` (generatorUtilities.mjs line 32, duplicated in
generators.mjs line 214):
`table.reduce((r, a) => a.map((v, i) => [...(r[i] || []), v]), [])`. -/
def transpose (table : List (List α)) : List (List α) :=
  table.foldl (fun r a => a.mapIdx (fun i v => r.getD i [] ++ [v])) []

/-- The small offset `Math.round(Math.random() * 1000) * .0000001` added by
`addSmallValue`, as a function of the draw `r`.  Mathlib's `round` rounds
half toward `+∞`, exactly like JS `Math.round`. -/
def smallOffset (r : ℚ) : ℚ :=
  ((round (r * 1000) : ℤ) : ℚ) * (1 / 10000000)

/-- `addSmallValue` (generatorUtilities.mjs line 42, duplicated in
generators.mjs line 223):
`number + (Math.round(Math.random() * 1000) * .0000001)`. -/
def addSmallValue (number r : ℚ) : ℚ :=
  number + smallOffset r

/-- `maybeAddSmallValue` (generatorUtilities.mjs line 51):
`Math.random() < 0.8 ? number : addSmallValue(number)`.  `r1` is the
threshold draw, `r2` the offset draw. -/
def maybeAddSmallValue (number r1 r2 : ℚ) : ℚ :=
  if r1 < 8/10 then number else addSmallValue number r2

/-- The float-jitter lambda inlined in `generate` (generators.mjs line 81):
`v => Math.random() < 0.9 ? v : addSmallValue(v)`.  Note the `0.9`
threshold, unlike `maybeAddSmallValue`'s `0.8`. -/
def tweakFloat (v r1 r2 : ℚ) : ℚ :=
  if r1 < 9/10 then v else addSmallValue v r2

/-- `maybeMangleDate` (generatorUtilities.mjs lines 59-69, duplicated in
generators.mjs lines 231-240).  `epochOf` models `new Date(dt).getTime()`
and `localeOf` models `new Date(dt).toLocaleString()` (external `Date`
behaviour); `r` is the single draw compared against 0.1 and 0.2. -/
def maybeMangleDate (epochOf : JsVal → ℚ) (localeOf : JsVal → String)
    (dt : JsVal) (r : ℚ) : JsVal :=
  if r < 1/10 then JsVal.num (epochOf dt)
  else if 1/10 ≤ r ∧ r < 2/10 then JsVal.str (localeOf dt)
  else dt

/-- `maybeMangleGeo` (generatorUtilities.mjs lines 79-89, duplicated in
generators.mjs lines 242-251), on number inputs:
10% small offset, 5% shift by ±180, 85% unchanged. -/
def maybeMangleGeo (coord r1 r2 : ℚ) : ℚ :=
  if r1 < 1/10 then addSmallValue coord r2
  else if 1/10 ≤ r1 ∧ r1 < 15/100 then
    (if coord < 0 then coord - 180 else coord + 180)
  else coord

/-- `maybeAddSmallValue` applied to a table cell.  On a string cell JS
`+` concatenates, stringifying the offset via `showNum`. -/
def maybeAddSmallValueV (showNum : ℚ → String) (v : JsVal) (r1 r2 : ℚ) : JsVal :=
  match v with
  | JsVal.num q => JsVal.num (maybeAddSmallValue q r1 r2)
  | JsVal.str s =>
      if r1 < 8/10 then JsVal.str s else JsVal.str (s ++ showNum (smallOffset r2))

/-- The generators.mjs line 81 jitter lambda applied to a table cell. -/
def tweakFloatV (showNum : ℚ → String) (v : JsVal) (r1 r2 : ℚ) : JsVal :=
  match v with
  | JsVal.num q => JsVal.num (tweakFloat q r1 r2)
  | JsVal.str s =>
      if r1 < 9/10 then JsVal.str s else JsVal.str (s ++ showNum (smallOffset r2))

/-- `maybeMangleGeo` applied to a table cell.  On a string cell the JS
comparison `coord < 0` is `false` (NaN comparison), so the `+180` branch
concatenates. -/
def maybeMangleGeoV (showNum : ℚ → String) (v : JsVal) (r1 r2 : ℚ) : JsVal :=
  match v with
  | JsVal.num q => JsVal.num (maybeMangleGeo q r1 r2)
  | JsVal.str s =>
      if r1 < 1/10 then JsVal.str (s ++ showNum (smallOffset r2))
      else if 1/10 ≤ r1 ∧ r1 < 15/100 then JsVal.str (s ++ showNum 180)
      else JsVal.str s

/-- `csv.replace(',', '')`: JS `String.replace` with a string pattern
replaces only the first occurrence. -/
def replaceFirstCommaAux : List Char → List Char
  | [] => []
  | c :: cs => if c = ',' then cs else c :: replaceFirstCommaAux cs

/-- `replaceFirstComma` lifted to `String`. -/
def replaceFirstComma (s : String) : String :=
  String.mk (replaceFirstCommaAux s.data)

/-- One step of the inner `reduce` of `convertToCsv`
(generatorUtilities.mjs lines 124-134): append the comma-prefixed cell
(numbers bare, everything else double-quoted), strip the first comma when
this is the row's first cell, append a line feed when it is the last.
`n` is `row.length`. -/
def csvStep (showNum : ℚ → String) (n : ℕ) (csv : String) (p : ℕ × JsVal) : String :=
  let csv := csv ++ (match p.2 with
    | JsVal.num q => "," ++ showNum q
    | JsVal.str s => "," ++ ("\"" ++ s ++ "\""))
  let csv := if p.1 = 0 then replaceFirstComma csv else csv
  if p.1 = n - 1 then csv ++ "\n" else csv

/-- The inner `reduce` of `convertToCsv`: one row rendered to text. -/
def csvRow (showNum : ℚ → String) (record : List JsVal) : String :=
  record.enum.foldl (csvStep showNum record.length) ""

/-- `convertToCsv` (generatorUtilities.mjs lines 123-137, duplicated in
generators.mjs lines 267-279): concatenation of the rendered rows. -/
def convertToCsv (showNum : ℚ → String) (tableArray : List (List JsVal)) : String :=
  tableArray.foldl (fun content record => content ++ csvRow showNum record) ""

/-- How one cell reads in the serialized text, per the spec of
`toDelimitedText`: a numeric-typed cell is emitted bare and every other
cell is wrapped in double quotes. -/
def csvCellText (showNum : ℚ → String) : JsVal → String
  | JsVal.num q => showNum q
  | JsVal.str s => "\"" ++ s ++ "\""

/-- Concatenation of a list of strings (used by the specification-side
serializer definition). -/
def joinStrings : List String → String
  | [] => ""
  | s :: rest => s ++ joinStrings rest

/-- Modelled from the spec (§4.5 Table Serializer): `toDelimitedText`
turns each row into one line — the cells joined by commas with no comma
before the first cell — terminated by exactly one line feed.  This is the
specification-side definition; the claim compares `convertToCsv` to it. -/
def toDelimitedText (showNum : ℚ → String) (t : List (List JsVal)) : String :=
  joinStrings (t.map (fun row =>
    match row with
    | [] => "\n"
    | c :: cs => csvCellText showNum c ++
        joinStrings (cs.map (fun v => "," ++ csvCellText showNum v)) ++ "\n"))

/-- The `i`-th column of a row-major rectangular table (the list of the
`i`-th entry of every row); used to characterise `transpose`. -/
def colAt (t : List (List α)) (i : ℕ) : List α :=
  t.filterMap (fun r => r[i]?)

/-- `removeRandomRows` (generatorUtilities.mjs lines 146-156): draw
`rands.length` indices as `Math.floor(Math.random() * dataRows.length)`,
sort them in descending order, and `splice` each out of the data rows
(`splice(n, 1)` with `n ≥ length` removes nothing, which is exactly
`List.eraseIdx`). -/
def removeRandomRows (table : List (List α)) (rands : List ℚ) : List (List α) :=
  let dataRows := table.drop 1
  let indices := rands.map (fun r => Int.toNat ⌊r * (dataRows.length : ℚ)⌋)
  let sorted := indices.mergeSort (fun a b => decide (b ≤ a))
  table.getD 0 [] :: sorted.foldl (fun rows n => rows.eraseIdx n) dataRows

/-- A column specification (`colspec` entry).  Only the fields the core
pipeline reads are modelled; the per-column generation parameters are
consumed exclusively by the external faker generator, which is modelled
as an oracle. -/
structure ColSpec where
  name : String
  variants : List String
  optional : Bool
  convert : Bool
deriving DecidableEq

/-- `getRequiredCols` (colspecUtilities.mjs line 25):
`colspec.filter(col => !col.optional)`. -/
def getRequiredCols (colspec : List ColSpec) : List ColSpec :=
  colspec.filter (fun col => !col.optional)

/-- `getOptionalCols` (colspecUtilities.mjs line 33). -/
def getOptionalCols (colspec : List ColSpec) : List ColSpec :=
  colspec.filter (fun col => col.optional)

/-- `getSelectedCols` (colspecUtilities.mjs line 74). -/
def getSelectedCols (opts : Bool) (colspec : List ColSpec) : List ColSpec :=
  if opts then colspec else getRequiredCols colspec

/-- `mangleColumns` (generatorUtilities.mjs lines 168-200).  Requested
column names are pascal-cased and looked up in the header row `table[0]`;
found positions are shifted by `+1` for the header row.  The rebuild
`reduce` assigns `t[i] = table[i].map(...)` for matched indices and
`t[i] = table[i]` otherwise, so every slot of the result is assigned for
the three known `type` values; an unknown `type` leaves a hole, and an
index beyond the table (reading `table[i] === undefined`, a crash in JS)
is modelled as a hole.  `rand i k` / `rand2 i k` are the per-cell draws
for table row `i`, element `k`.  `mangleColumnsIndices` is the index
collection (lines 169-178). -/
def mangleColumnsIndices (pc : String → String) (table : List (List JsVal))
    (colsToMangle : List String) : List ℕ :=
  let tweakedFloatCols := colsToMangle.map pc
  tweakedFloatCols.foldl (fun idc col =>
    match (table.getD 0 []).findIdx? (fun el => el = JsVal.str col) with
    | some i => idc ++ [i + 1]
    | none => idc) []

/-- The rebuild `reduce` of `mangleColumns`: see the doc comment above. -/
def mangleColumns (pc : String → String) (showNum : ℚ → String)
    (epochOf : JsVal → ℚ) (localeOf : JsVal → String)
    (table : List (List JsVal)) (colsToMangle : List String) (type : String)
    (rand rand2 : ℕ → ℕ → ℚ) : List (Option (List JsVal)) :=
  let indices := mangleColumnsIndices pc table colsToMangle
  (List.range table.length).foldl (fun t i =>
    if i ∈ indices then
      if type = "float" then
        jsSet t i ((table[i]?).map (fun col =>
          col.mapIdx (fun k v => maybeAddSmallValueV showNum v (rand i k) (rand2 i k))))
      else if type = "date" then
        jsSet t i ((table[i]?).map (fun col =>
          col.mapIdx (fun k v => maybeMangleDate epochOf localeOf v (rand i k))))
      else if type = "geo" then
        jsSet t i ((table[i]?).map (fun col =>
          col.mapIdx (fun k v => maybeMangleGeoV showNum v (rand i k) (rand2 i k))))
      else t
    else jsSet t i (table[i]?))
    []

/-- `mangleColumnNames` (generatorUtilities.mjs lines 213-230).  The input
is cloned first (a no-op here), then the header row is rewritten: a header
matching a pascal-cased requested name is replaced by the snake-cased
form of a random element of `[spec.name, ...spec.variants]`.  A matched
header with no corresponding spec crashes in JS (`spec.name` on
`undefined`), modelled as `none`; so does an empty table
(`table[0].map` on `undefined`).  `rand i` is the draw for header
position `i`.  `mangleHeaderCell` is the per-header-cell map passed to
`table[0].map`. -/
def mangleHeaderCell (pc sc : String → String) (columnsToMangle : List String)
    (columnSpec : List ColSpec) (rand : ℕ → ℚ) (p : ℕ × JsVal) : Option JsVal :=
  match p.2 with
  | JsVal.str h =>
    if h ∈ columnsToMangle.map pc then
      match columnSpec.find? (fun (s : ColSpec) => pc s.name = h) with
      | none => none
      | some spec =>
        let variants := spec.name :: spec.variants
        (variants[Int.toNat ⌊rand p.1 * (variants.length : ℚ)⌋]?).map
          (fun v => JsVal.str (sc v))
    else some (JsVal.str h)
  | v => some v

/-- `mangleColumnNames` (generatorUtilities.mjs lines 213-230): clone the
table (a no-op here) and rewrite the header row with `mangleHeaderCell`,
leaving all data rows as they are. -/
def mangleColumnNames (pc sc : String → String) (table : List (List JsVal))
    (columnsToMangle : List String) (columnSpec : List ColSpec)
    (rand : ℕ → ℚ) : Option (List (List JsVal)) :=
  match table[0]? with
  | none => none
  | some row0 =>
    (row0.enum.mapM (mangleHeaderCell pc sc columnsToMangle columnSpec rand)).map
      (fun newRow0 => newRow0 :: table.drop 1)

/-- `shuffleColumns` (generatorUtilities.mjs lines 98-115).
`shuffledTail` stands for `headers.slice(1).sort(() => 0.5 - Math.random())`,
the random reordering of the non-identity headers (theorems hypothesise it
is a permutation of the tail).  Each original column `original[i]` is
assigned to slot `findIndex(headers[i-1], newHeaders) + 1`
(`findIndex` returning `-1` maps to slot 0); slot 0 gets `newHeaders`.
Slots never assigned remain holes, as in the JS sparse array. -/
def shuffleColumns [DecidableEq α] (original : List (List α)) (shuffledTail : List α) :
    List (Option (List α)) :=
  let headers := original.getD 0 []
  let newHeaders := headers.take 1 ++ shuffledTail
  let newOrder := headers.map (fun h =>
    ((newHeaders.findIdx? (fun h2 => h = h2)).map (fun i => i + 1)).getD 0)
  ((0 : ℕ) :: newOrder).enum.foldl (fun no p =>
    if p.1 = 0 then jsSet no 0 (some newHeaders)
    else jsSet no p.2 (original[p.1]?))
    (List.replicate original.length none)

/-- The `answers` object consumed by `generate` (generators.mjs lines
32-41).  `none` in an `Option` field models an absent (undefined) answer. -/
structure Answers where
  includeOptional : Bool
  sourceCount : ℕ
  rowDiff : ℤ
  colsRandomized : Bool
  mangleColNames : Option (List String)
  floatColsToTweak : Option (List String)
  dateColsToMangle : Option (List String)
  geoColsToMangle : Option (List String)

/-- `generateHeaders` (generators.mjs lines 162-163) as called by
`generate` (always with `mangle = false`, so the `mangleName` branch is
dead at that call site): the pascal-cased canonical name of each spec. -/
def generateHeaders (pc : String → String) (colspec : List ColSpec) : List JsVal :=
  colspec.map (fun cs => JsVal.str (pc cs.name))

/-- `generateValues` (generators.mjs lines 173-189):
`Array.from({ length: num }).map(gen)` with `gen` invoking the external
faker generator once per row; `vals` is that generator as an oracle from
the row index. -/
def generateValues (vals : ℕ → JsVal) (num : ℕ) : List JsVal :=
  (List.range num).map vals

/-- The SOURCE-building `reduce` in `generate` (generators.mjs lines
48-60): headers are installed on the first iteration, then one value
column per spec is pushed, re-coerced through `Number` (the `jsNumber`
oracle) when `convert` is set.  `vals i k` is the faker value for column
`i`, row `k`. -/
def buildSource (pc : String → String) (jsNumber : JsVal → JsVal)
    (vals : ℕ → ℕ → JsVal) (colspec : List ColSpec) (rowCount : ℕ) :
    List (List JsVal) :=
  colspec.enum.foldl (fun (src : List (List JsVal)) (p : ℕ × ColSpec) =>
    let src := if p.1 = 0 then [generateHeaders pc colspec] else src
    let src := src ++ [generateValues (vals p.1) rowCount]
    if p.2.convert then src.set (p.1 + 1) ((src.getD (p.1 + 1) []).map jsNumber)
    else src)
    []

/-- One of the three value-mangling blocks of `generate` (generators.mjs
lines 79-85, 95-100, 111-116).  All three are the same `reduce` with a
different per-cell function `f`: the accumulator starts as `[]`, matched
indices assign `t[i] = t[i].map(f)` — reading `t[i]` from the ACCUMULATOR,
which is `undefined` there (a crash, `none`) — and there is no `else`
branch, so unmatched slots (every slot, when no index matches) are never
copied over from `target`. -/
def mangleBlock (target : List (Option (List JsVal))) (indices : List ℕ)
    (f : ℕ → ℕ → JsVal → JsVal) : Option (List (Option (List JsVal))) :=
  (List.range target.length).foldl (fun acc i =>
    acc.bind (fun t =>
      if i ∈ indices then
        (jsGet t i).map (fun col => jsSet t i (some (col.mapIdx (fun k v => f i k v))))
      else some t))
    (some [])

/-- The index collection shared by the three mangling blocks of
`generate` (generators.mjs lines 72-78 etc.): each requested column name
is looked up verbatim (NOT pascal-cased) in the SOURCE header row, and
misses are silently dropped. -/
def generateFindIndices (source : List (List JsVal)) (cols : List String) : List ℕ :=
  cols.foldl (fun idc col =>
    match (source.getD 0 []).findIdx? (fun el => el = JsVal.str col) with
    | some i => idc ++ [i]
    | none => idc) []

/-- `shuffleArray` (generators.mjs lines 253-265): indices in `newOrder`
are shifted by `+1` for the header row (a `findIndex` miss, `-1`, lands
on slot 0), a dummy is unshifted, and each original row is assigned to
its new slot; slot 0 receives `newHeaders`.  The `ids` argument of the
JS function is never used by its body and is omitted. -/
def shuffleArray (original : List (Option (List JsVal))) (newOrder : List ℤ)
    (newHeaders : List JsVal) : List (Option (List JsVal)) :=
  let newOrder := newOrder.map (fun o => o + 1)
  ((0 : ℤ) :: newOrder).enum.foldl (fun no p =>
    if p.1 = 0 then jsSet no 0 (some newHeaders)
    else jsSet no p.2.toNat (jsGet original p.1))
    (List.replicate original.length none)

/-- `generate` (generators.mjs lines 31-139).  Oracles: `pc`/`sc` are the
external `pascalCase`/`snakeCase`, `jsNumber` is JS `Number` coercion,
`showNum` JS number-to-string, `epochOf`/`localeOf` the `Date`
conversions, `vals` the faker generator, the `*Rand` functions the
`Math.random()` draws of each block (indexed by table row and cell), and
`shuffleOracle` the random reordering produced by
`sort(() => 0.5 - Math.random())`.  `none` models a thrown `TypeError`
or a table corrupted by an `undefined` row. -/
def generate (pc sc : String → String) (jsNumber : JsVal → JsVal)
    (showNum : ℚ → String) (epochOf : JsVal → ℚ) (localeOf : JsVal → String)
    (vals : ℕ → ℕ → JsVal)
    (floatRand floatRand2 dateRand geoRand geoRand2 : ℕ → ℕ → ℚ)
    (shuffleOracle : List JsVal → List JsVal)
    (answers : Answers) (colspec : List ColSpec) :
    Option (List (List JsVal) × List (List JsVal)) := do
  let rows := answers.sourceCount
  let diff := answers.rowDiff
  let colspec := if answers.includeOptional then colspec else getRequiredCols colspec
  let rowCount := if diff > 0 then rows + diff.toNat else rows
  let source := buildSource pc jsNumber vals colspec rowCount
  let target : List (Option (List JsVal)) := source.map some
  let target ←
    match answers.mangleColNames with
    | some l =>
      if l[0]? ≠ some "None" then do
        let colNamesToMangle := l.map pc
        let row0 ← jsGet target 0
        let mangledNames := row0.map (fun h =>
          match h with
          | JsVal.str s => if s ∈ colNamesToMangle then JsVal.str (sc s) else JsVal.str s
          | v => v)
        pure (jsSet target 0 (some mangledNames))
      else pure target
    | none => pure target
  let target ←
    match answers.floatColsToTweak with
    | some l =>
      if l[0]? ≠ some "None" then
        mangleBlock target (generateFindIndices source l)
          (fun i k v => tweakFloatV showNum v (floatRand i k) (floatRand2 i k))
      else pure target
    | none => pure target
  let target ←
    match answers.dateColsToMangle with
    | some l =>
      if l[0]? ≠ some "None" then
        mangleBlock target (generateFindIndices source l)
          (fun i k v => maybeMangleDate epochOf localeOf v (dateRand i k))
      else pure target
    | none => pure target
  let target ←
    match answers.geoColsToMangle with
    | some l =>
      if l[0]? ≠ some "None" then
        mangleBlock target (generateFindIndices source l)
          (fun i k v => maybeMangleGeoV showNum v (geoRand i k) (geoRand2 i k))
      else pure target
    | none => pure target
  let target ←
    if answers.colsRandomized then do
      let headers ← jsGet target 0
      let _ids ← jsGet target 1
      let newHeaders := headers.take 1 ++ shuffleOracle (headers.drop 1)
      let newOrder := headers.map (fun h =>
        ((newHeaders.findIdx? (fun h2 => h = h2)).map (fun i => (i : ℤ))).getD (-1))
      pure (shuffleArray target newOrder newHeaders)
    else pure target
  let sourceT := source.getD 0 [] :: transpose (source.drop 1)
  let targetTail ← (target.drop 1).mapM id
  let row0 ← jsGet target 0
  let targetT := row0 :: transpose targetTail
  let sourceF := if diff > 0 then sourceT.take (rows + 1) else sourceT
  let targetF := if diff < 0 then targetT.take (((rows : ℤ) + diff).toNat + 1) else targetT
  pure (sourceF, targetF)

/-! ## Helper lemmas -/

theorem mapM_eq_some_self (f : α → Option β) (g : α → β) (l : List α)
    (h : ∀ p ∈ l, f p = some (g p)) : l.mapM f = some (l.map g) := by
  rw [← List.mapM'_eq_mapM]
  induction l with
  | nil => rfl
  | cons x xs ih =>
    have hx := h x (List.mem_cons_self x xs)
    have ihx := ih (fun p hp => h p (List.mem_cons_of_mem x hp))
    simp only [List.mapM', hx, ihx, Option.bind_eq_bind, Option.bind_some, List.map_cons]
    rfl

theorem mapM_eq_none_of_mem (f : α → Option β) (l : List α) (p : α)
    (hp : p ∈ l) (hf : f p = none) : l.mapM f = none := by
  rw [← List.mapM'_eq_mapM]
  induction l with
  | nil => simp at hp
  | cons x xs ih =>
    rcases List.mem_cons.mp hp with h | h
    · subst h
      simp [List.mapM', hf]
    · cases hx : f x with
      | none => simp [List.mapM', hx]
      | some y =>
        simp only [List.mapM', hx, Option.bind_eq_bind, Option.bind_some]
        rw [ih h]
        rfl

theorem mapM_length (f : α → Option β) (l : List α) (l' : List β)
    (h : l.mapM f = some l') : l'.length = l.length := by
  rw [← List.mapM'_eq_mapM] at h
  induction l generalizing l' with
  | nil =>
    simp only [List.mapM'] at h
    cases h
    rfl
  | cons x xs ih =>
    cases hx : f x with
    | none => simp [List.mapM', hx] at h
    | some y =>
      cases hxs : xs.mapM' f with
      | none => simp [List.mapM', hx, hxs] at h
      | some ys =>
        simp only [List.mapM', hx, hxs, Option.bind_eq_bind, Option.some_bind,
          Option.pure_def, Option.some.injEq] at h
        subst h
        simp [ih ys hxs]

theorem mem_enum_of_getElem? {l : List α} {i : ℕ} {a : α}
    (h : l[i]? = some a) : (i, a) ∈ l.enum := by
  have he : l.enum[i]? = some (i, a) := by
    simp [List.getElem?_enum, h]
  exact List.mem_iff_getElem?.mpr ⟨i, he⟩

/-! ## C1: float jitter -/

/-- C1 (amended).  `maybeAddSmallValue` leaves `v` unchanged exactly when
the threshold draw is below 0.8 and otherwise adds
`round(r2 * 1000) * 0.0000001`; the inline jitter of `generate`
(`tweakFloat`) does the same with threshold 0.9.  For a draw
`r2 ∈ [0, 1)` the offset lies in `[0, 0.0001]`, the result is never less
than `v`, and a non-negative `v` stays non-negative (positive stays
positive). -/
theorem C1_float_jitter_amended (v r1 r2 : ℚ) (h0 : 0 ≤ r2) (h1 : r2 < 1) :
    (r1 < 8/10 → maybeAddSmallValue v r1 r2 = v) ∧
    (¬ r1 < 8/10 → maybeAddSmallValue v r1 r2 = v + smallOffset r2) ∧
    (r1 < 9/10 → tweakFloat v r1 r2 = v) ∧
    (¬ r1 < 9/10 → tweakFloat v r1 r2 = v + smallOffset r2) ∧
    0 ≤ smallOffset r2 ∧ smallOffset r2 ≤ 1/10000 ∧
    v ≤ maybeAddSmallValue v r1 r2 ∧ v ≤ tweakFloat v r1 r2 ∧
    (0 ≤ v → 0 ≤ maybeAddSmallValue v r1 r2) ∧
    (0 < v → 0 < maybeAddSmallValue v r1 r2) := by
  have hround0 : (0 : ℤ) ≤ round (r2 * 1000) := by
    rw [round_eq]
    exact Int.floor_nonneg.mpr (by linarith)
  have hround1 : round (r2 * 1000) ≤ 1000 := by
    rw [round_eq]
    have : (r2 * 1000 + 1/2 : ℚ) < ((1001 : ℤ) : ℚ) := by push_cast; linarith
    have := Int.floor_lt.mpr this
    omega
  have hoff0 : 0 ≤ smallOffset r2 := by
    unfold smallOffset
    have : (0 : ℚ) ≤ ((round (r2 * 1000) : ℤ) : ℚ) := by exact_mod_cast hround0
    positivity
  have hoffU : smallOffset r2 ≤ 1/10000 := by
    unfold smallOffset
    have : ((round (r2 * 1000) : ℤ) : ℚ) ≤ 1000 := by exact_mod_cast hround1
    linarith
  refine ⟨fun h => by simp [maybeAddSmallValue, h],
    fun h => by simp [maybeAddSmallValue, h, addSmallValue],
    fun h => by simp [tweakFloat, h],
    fun h => by simp [tweakFloat, h, addSmallValue],
    hoff0, hoffU, ?_, ?_, ?_, ?_⟩
  · unfold maybeAddSmallValue addSmallValue
    split <;> linarith
  · unfold tweakFloat addSmallValue
    split <;> linarith
  · intro hv
    unfold maybeAddSmallValue addSmallValue
    split <;> linarith
  · intro hv
    unfold maybeAddSmallValue addSmallValue
    split <;> linarith

/-- C1 witness: the amended theorem applied at `v = 1`, `r1 = 0`,
`r2 = 1/2`. -/
theorem C1_float_jitter_witness :
    maybeAddSmallValue 1 0 (1/2) = 1 ∧ 0 ≤ smallOffset (1/2) := by
  have h := C1_float_jitter_amended 1 0 (1/2) (by norm_num) (by norm_num)
  exact ⟨h.1 (by norm_num), h.2.2.2.2.1⟩

/-- C1 counterexample.  The jitter flips the sign of `v = -5·10⁻⁸` (draws:
threshold 0.9, offset draw 1/2000 giving offset 10⁻⁷), and the inline
jitter of `generate` leaves `v` unchanged at the draw 0.85 even though
0.85 is outside the claimed 80% keep-region. -/
theorem C1_float_jitter_cex :
    ((-(1/20000000) : ℚ) < 0 ∧ 0 < maybeAddSmallValue (-(1/20000000)) (9/10) (1/2000)) ∧
    tweakFloat 5 (17/20) 0 = 5 ∧ ¬ ((17/20 : ℚ) < 8/10) := by
  refine ⟨⟨by norm_num, ?_⟩, by norm_num [tweakFloat], by norm_num⟩
  unfold maybeAddSmallValue addSmallValue smallOffset
  rw [if_neg (by norm_num)]
  have hr : round ((1:ℚ)/2000 * 1000) = 1 := by
    rw [show ((1:ℚ)/2000 * 1000) = 1/2 by norm_num, round_eq,
      show ((1:ℚ)/2 + 1/2) = 1 by norm_num]
    exact Int.floor_one
  rw [hr]
  norm_num

/-! ## C10: mangleColumnNames touches only the header row -/

/-- C10.  Whenever `mangleColumnNames` returns a table, that table has the
same number of rows as the input and every data row (index 1 onward) is
the input's data row unchanged; only the header row can differ.  (The
input itself is immutable in this embedding; in the JS source the
`JSON.parse(JSON.stringify(table))` clone guarantees the argument is not
mutated.) -/
theorem C10_mangle_names_frame (pc sc : String → String)
    (table : List (List JsVal)) (cols : List String) (spec : List ColSpec)
    (rand : ℕ → ℚ) (t' : List (List JsVal))
    (h : mangleColumnNames pc sc table cols spec rand = some t') :
    t'.length = table.length ∧ t'.drop 1 = table.drop 1 := by
  unfold mangleColumnNames at h
  cases h0 : table[0]? with
  | none => rw [h0] at h; cases h
  | some row0 =>
    rw [h0] at h
    rcases Option.map_eq_some'.mp h with ⟨newRow0, _, ht⟩
    have hlen : 0 < table.length := by
      rcases List.getElem?_eq_some.mp h0 with ⟨hl, _⟩
      omega
    subst ht
    constructor
    · simp
      omega
    · simp

/-- C10 witness: the theorem applied to a concrete two-row table with an
empty rename request. -/
theorem C10_mangle_names_frame_witness :
    ([[JsVal.str "A"], [JsVal.num 1]] : List (List JsVal)).length =
      ([[JsVal.str "A"], [JsVal.num 1]] : List (List JsVal)).length ∧
    ([[JsVal.str "A"], [JsVal.num 1]] : List (List JsVal)).drop 1 =
      ([[JsVal.str "A"], [JsVal.num 1]] : List (List JsVal)).drop 1 :=
  C10_mangle_names_frame (fun s => s) (fun s => s)
    [[JsVal.str "A"], [JsVal.num 1]] [] [] (fun _ => 0)
    [[JsVal.str "A"], [JsVal.num 1]] (by decide)

/-! ## C2: lookup failures in rename requests -/

/-- C2 (amended).  In `mangleColumnNames`, a requested column name whose
pascal-cased form matches no header cell is silently ignored — the table
comes back with that request having had no effect; only a requested name
that does match a header cell but has no matching column spec surfaces an
error (the JS code throws; here, `none`). -/
theorem C2_lookup_failure_amended (pc sc : String → String)
    (table : List (List JsVal)) (cols : List String) (spec : List ColSpec)
    (rand : ℕ → ℚ) (row0 : List JsVal) (h0 : table[0]? = some row0) :
    ((∀ v ∈ row0, ∀ c ∈ cols, v ≠ JsVal.str (pc c)) →
      mangleColumnNames pc sc table cols spec rand = some table) ∧
    (∀ h, JsVal.str h ∈ row0 → h ∈ cols.map pc →
      spec.find? (fun sp => pc sp.name = h) = none →
      mangleColumnNames pc sc table cols spec rand = none) := by
  have htab : table = row0 :: table.drop 1 := by
    cases table with
    | nil => simp at h0
    | cons x xs =>
      simp only [List.getElem?_cons_zero, Option.some.injEq] at h0
      rw [h0]
      rfl
  constructor
  · intro hmiss
    unfold mangleColumnNames
    rw [h0]
    show Option.map (fun newRow0 => newRow0 :: List.drop 1 table)
      (row0.enum.mapM (mangleHeaderCell pc sc cols spec rand)) = some table
    have hm : row0.enum.mapM (mangleHeaderCell pc sc cols spec rand)
        = some (row0.enum.map Prod.snd) := by
      apply mapM_eq_some_self
      intro p hp
      have hpv : p.2 ∈ row0 := by
        have := List.mem_map_of_mem Prod.snd hp
        rwa [List.enum_map_snd] at this
      unfold mangleHeaderCell
      cases hp2 : p.2 with
      | num q => rfl
      | str s =>
        have hns : s ∉ cols.map pc := by
          intro hs
          rcases List.mem_map.mp hs with ⟨c, hc, hpc⟩
          exact hmiss (JsVal.str s) (hp2 ▸ hpv) c hc (by rw [hpc])
        simp [hns]
    rw [hm, List.enum_map_snd]
    rw [Option.map_some']
    rw [← htab]
  · intro h hmem hreq hfind
    unfold mangleColumnNames
    rw [h0]
    show Option.map (fun newRow0 => newRow0 :: List.drop 1 table)
      (row0.enum.mapM (mangleHeaderCell pc sc cols spec rand)) = none
    rcases List.mem_iff_getElem?.mp hmem with ⟨i, hi⟩
    have henum := mem_enum_of_getElem? hi
    have hcell : mangleHeaderCell pc sc cols spec rand (i, JsVal.str h) = none := by
      unfold mangleHeaderCell
      simp [hreq, hfind]
    rw [mapM_eq_none_of_mem _ _ _ henum hcell]
    rfl

/-- C2 witness: a missed lookup is silently ignored on a concrete table
(first conjunct of the amended theorem), and a matched header with no
spec yields an error (second conjunct). -/
theorem C2_lookup_failure_witness :
    mangleColumnNames (fun s => s) (fun s => s) [[JsVal.str "Id"], [JsVal.num 1]]
      ["Amount"] [ColSpec.mk "Amount" [] false false] (fun _ => 0)
      = some [[JsVal.str "Id"], [JsVal.num 1]] ∧
    mangleColumnNames (fun s => s) (fun s => s) [[JsVal.str "Amount"]]
      ["Amount"] [] (fun _ => 0) = none :=
  ⟨(C2_lookup_failure_amended (fun s => s) (fun s => s)
      [[JsVal.str "Id"], [JsVal.num 1]] ["Amount"]
      [ColSpec.mk "Amount" [] false false] (fun _ => 0)
      [JsVal.str "Id"] rfl).1 (by decide),
   (C2_lookup_failure_amended (fun s => s) (fun s => s)
      [[JsVal.str "Amount"]] ["Amount"] [] (fun _ => 0)
      [JsVal.str "Amount"] rfl).2 "Amount" (by decide) (by decide) (by decide)⟩

/-- C2 counterexample.  A rename request for "Amount" against a table
whose only header is "Id" (no matching header cell) does NOT surface an
error: the table is returned unchanged, the request silently ignored. -/
theorem C2_lookup_failure_cex :
    mangleColumnNames (fun s => s) (fun s => s) [[JsVal.str "Id"], [JsVal.num 1]]
      ["Amount"] [ColSpec.mk "Amount" [] false false] (fun _ => 0)
      = some [[JsVal.str "Id"], [JsVal.num 1]] := by
  decide

/-! ## C3: removeRandomRows -/

theorem foldl_eraseIdx_sublist (l : List ℕ) :
    ∀ (d : List β), (l.foldl (fun rows n => rows.eraseIdx n) d).Sublist d := by
  induction l with
  | nil => intro d; exact List.Sublist.refl d
  | cons x xs ih =>
    intro d
    exact (ih (d.eraseIdx x)).trans (List.eraseIdx_sublist d x)

theorem foldl_eraseIdx_length_ge (l : List ℕ) :
    ∀ (d : List β),
      d.length - l.length ≤ (l.foldl (fun rows n => rows.eraseIdx n) d).length := by
  induction l with
  | nil => intro d; simp
  | cons x xs ih =>
    intro d
    have h1 := ih (d.eraseIdx x)
    have h2 : d.length - 1 ≤ (d.eraseIdx x).length := by
      rw [List.length_eraseIdx]
      split <;> omega
    simp only [List.foldl_cons, List.length_cons]
    omega

theorem foldl_eraseIdx_length_eq (l : List ℕ) :
    ∀ (d : List β), l.Pairwise (· > ·) → (∀ x ∈ l, x < d.length) →
      (l.foldl (fun rows n => rows.eraseIdx n) d).length = d.length - l.length := by
  induction l with
  | nil => intro d _ _; simp
  | cons x xs ih =>
    intro d hp hlt
    have hx : x < d.length := hlt x (List.mem_cons_self x xs)
    have hlen : (d.eraseIdx x).length = d.length - 1 := by
      rw [List.length_eraseIdx]
      simp [hx]
    have hxs : ∀ y ∈ xs, y < (d.eraseIdx x).length := by
      intro y hy
      have : x > y := (List.pairwise_cons.mp hp).1 y hy
      omega
    simp only [List.foldl_cons, List.length_cons]
    rw [ih (d.eraseIdx x) (List.pairwise_cons.mp hp).2 hxs, hlen]
    omega

/-- C3 (amended).  `removeRandomRows` on a table of a header plus `n`
data rows, drawing `num` indices (each draw in `[0,1)`, `num ≤ n`):
the first row of the result is the header, the remaining rows are a
subsequence of the original data rows (so each is one of the originals,
in their original order), their count lies between `n - num` and `n`,
and it equals `n - num` exactly whenever the drawn indices are pairwise
distinct.  (Repeated draws of the maximal index remove fewer than `num`
rows: `splice` past the end removes nothing.) -/
theorem C3_remove_rows_amended (header : List α) (data : List (List α)) (rands : List ℚ)
    (hr : ∀ r ∈ rands, 0 ≤ r ∧ r < 1) (hn : rands.length ≤ data.length) :
    (removeRandomRows (header :: data) rands).head? = some header ∧
    ((removeRandomRows (header :: data) rands).drop 1).Sublist data ∧
    data.length - rands.length ≤ ((removeRandomRows (header :: data) rands).drop 1).length ∧
    ((removeRandomRows (header :: data) rands).drop 1).length ≤ data.length ∧
    ((rands.map (fun r => Int.toNat ⌊r * (data.length : ℚ)⌋)).Nodup →
      ((removeRandomRows (header :: data) rands).drop 1).length
        = data.length - rands.length) := by
  have hres : removeRandomRows (header :: data) rands
      = header :: ((rands.map (fun r => Int.toNat ⌊r * (data.length : ℚ)⌋)).mergeSort
          (fun a b => decide (b ≤ a))).foldl (fun rows n => rows.eraseIdx n) data := rfl
  have hperm := List.mergeSort_perm
    (rands.map (fun r => Int.toNat ⌊r * (data.length : ℚ)⌋)) (fun a b => decide (b ≤ a))
  have hSlen : ((rands.map (fun r => Int.toNat ⌊r * (data.length : ℚ)⌋)).mergeSort
      (fun a b => decide (b ≤ a))).length = rands.length := by
    rw [hperm.length_eq, List.length_map]
  have hbound : ∀ x ∈ (rands.map (fun r => Int.toNat ⌊r * (data.length : ℚ)⌋)).mergeSort
      (fun a b => decide (b ≤ a)), x < data.length := by
    intro x hx
    have hx2 := hperm.mem_iff.mp hx
    rcases List.mem_map.mp hx2 with ⟨r, hrm, hreq⟩
    have hrb := hr r hrm
    have hpos : 0 < data.length := by
      have : rands ≠ [] := List.ne_nil_of_mem hrm
      have := List.length_pos.mpr this
      omega
    have hfl : ⌊r * (data.length : ℚ)⌋ < (data.length : ℤ) := by
      apply Int.floor_lt.mpr
      push_cast
      calc r * (data.length : ℚ) < 1 * (data.length : ℚ) := by
            apply mul_lt_mul_of_pos_right hrb.2
            exact_mod_cast hpos
        _ = (data.length : ℚ) := one_mul _
    omega
  have hsorted : ((rands.map (fun r => Int.toNat ⌊r * (data.length : ℚ)⌋)).mergeSort
      (fun a b => decide (b ≤ a))).Pairwise (fun a b => b ≤ a) := by
    have := @List.sorted_mergeSort ℕ (fun (a b : ℕ) => decide (b ≤ a))
      (fun a b c hab hbc => by
        simp only [decide_eq_true_eq] at hab hbc ⊢
        omega)
      (fun a b => by
        simp only [Bool.or_eq_true, decide_eq_true_eq]
        omega)
      (rands.map (fun r => Int.toNat ⌊r * (data.length : ℚ)⌋))
    exact this.imp (fun h => by simpa using h)
  rw [hres]
  refine ⟨rfl, ?_, ?_, ?_, ?_⟩
  · simpa using foldl_eraseIdx_sublist _ data
  · have := foldl_eraseIdx_length_ge
      ((rands.map (fun r => Int.toNat ⌊r * (data.length : ℚ)⌋)).mergeSort
        (fun a b => decide (b ≤ a))) data
    simpa [hSlen] using this
  · have := (foldl_eraseIdx_sublist
      ((rands.map (fun r => Int.toNat ⌊r * (data.length : ℚ)⌋)).mergeSort
        (fun a b => decide (b ≤ a))) data).length_le
    simpa using this
  · intro hnd
    have hSnd : ((rands.map (fun r => Int.toNat ⌊r * (data.length : ℚ)⌋)).mergeSort
        (fun a b => decide (b ≤ a))).Nodup := hperm.nodup_iff.mpr hnd
    have hgt : ((rands.map (fun r => Int.toNat ⌊r * (data.length : ℚ)⌋)).mergeSort
        (fun a b => decide (b ≤ a))).Pairwise (· > ·) := by
      have hand := hsorted.and hSnd
      exact hand.imp (fun h => lt_of_le_of_ne h.1 (Ne.symm h.2))
    have := foldl_eraseIdx_length_eq _ data hgt hbound
    simpa [hSlen] using this

/-- C3 witness: the amended theorem at a concrete table with a header and
three data rows, removing two rows with the distinct draws 0 and 2/3. -/
theorem C3_remove_rows_witness :
    (removeRandomRows [[0], [1], [2], [3]] [0, 2/3]).head? = some [0] ∧
    ((removeRandomRows [[0], [1], [2], [3]] [0, 2/3]).drop 1).Sublist [[1], [2], [3]] ∧
    ([[1], [2], [3]] : List (List ℕ)).length - ([0, 2/3] : List ℚ).length ≤
      ((removeRandomRows [[0], [1], [2], [3]] [0, 2/3]).drop 1).length ∧
    ((removeRandomRows [[0], [1], [2], [3]] [0, 2/3]).drop 1).length ≤
      ([[1], [2], [3]] : List (List ℕ)).length ∧
    ((([0, 2/3] : List ℚ).map
        (fun r => Int.toNat ⌊r * (([[1], [2], [3]] : List (List ℕ)).length : ℚ)⌋)).Nodup →
      ((removeRandomRows [[0], [1], [2], [3]] [0, 2/3]).drop 1).length
        = ([[1], [2], [3]] : List (List ℕ)).length - ([0, 2/3] : List ℚ).length) :=
  C3_remove_rows_amended [0] [[1], [2], [3]] [0, 2/3]
    (by
      intro r h
      simp only [List.mem_cons, List.not_mem_nil, or_false] at h
      rcases h with rfl | rfl <;> norm_num)
    (by simp)

/-- C3 counterexample.  With a header plus 8 data rows and 3 draws all
equal to 15/16 (index 7 each time), only one row is removed: the result
has 7 data rows, not 8 − 3 = 5.  Both draws lie in the claim's `[0,1)`
domain. -/
theorem C3_remove_rows_cex :
    (0 ≤ (15/16 : ℚ) ∧ (15/16 : ℚ) < 1) ∧
    ((removeRandomRows [[0], [1], [2], [3], [4], [5], [6], [7], [8]]
        [15/16, 15/16, 15/16]).drop 1).length = 7 ∧ (7 : ℕ) ≠ 8 - 3 := by
  have key : ∀ (tbl : List (List ℕ)) (rands : List ℚ) (idx : List ℕ),
      rands.map (fun r => Int.toNat ⌊r * ((tbl.drop 1).length : ℚ)⌋) = idx →
      removeRandomRows tbl rands = tbl.getD 0 [] ::
        (idx.mergeSort (fun a b => decide (b ≤ a))).foldl
          (fun rows n => rows.eraseIdx n) (tbl.drop 1) := by
    intro tbl rands idx h
    show tbl.getD 0 [] ::
        ((rands.map (fun r => Int.toNat ⌊r * ((tbl.drop 1).length : ℚ)⌋)).mergeSort
          (fun a b => decide (b ≤ a))).foldl
          (fun rows n => rows.eraseIdx n) (tbl.drop 1) = _
    rw [h]
  have hfl : Int.toNat ⌊(15/16 : ℚ) * ((8 : ℕ) : ℚ)⌋ = 7 := by
    rw [show ((15:ℚ)/16 * ((8 : ℕ) : ℚ)) = 15/2 by push_cast; ring]
    norm_num
    rfl
  have hidx : ([15/16, 15/16, 15/16] : List ℚ).map (fun r =>
      Int.toNat ⌊r * ((([[0], [1], [2], [3], [4], [5], [6], [7], [8]] :
        List (List ℕ)).drop 1).length : ℚ)⌋) = [7, 7, 7] := by
    simp only [List.map_cons, List.map_nil, List.drop_succ_cons, List.drop_zero,
      List.length_cons, List.length_nil]
    rw [show (7 + 1 : ℕ) = 8 from rfl]
    rw [hfl]
  rw [key _ _ _ hidx]
  have hms : (([7, 7, 7] : List ℕ).mergeSort (fun a b => decide (b ≤ a))) = [7, 7, 7] := by
    have hperm := List.mergeSort_perm ([7, 7, 7] : List ℕ) (fun a b => decide (b ≤ a))
    have hrep : ([7, 7, 7] : List ℕ) = List.replicate 3 7 := rfl
    rw [hrep] at hperm ⊢
    refine List.eq_replicate_iff.2 ⟨by simp [hperm.length_eq], fun b hb => ?_⟩
    have := hperm.mem_iff.mp hb
    simpa using this
  rw [hms]
  refine ⟨⟨by norm_num, by norm_num⟩, ?_, by norm_num⟩
  decide

/-! ## C7: transpose -/

theorem getElem?_map_range (f : ℕ → α) (n j : ℕ) :
    ((List.range n).map f)[j]? = if j < n then some (f j) else none := by
  rw [List.getElem?_map]
  by_cases h : j < n
  · rw [List.getElem?_range h, if_pos h]
    rfl
  · rw [List.getElem?_eq_none (by simpa using le_of_not_lt h), if_neg h]
    rfl

theorem getElem?_mapIdx (l : List α) (f : ℕ → α → β) (j : ℕ) :
    (l.mapIdx f)[j]? = (l[j]?).map (f j) := by
  rw [List.mapIdx_eq_enum_map, List.getElem?_map, List.getElem?_enum]
  cases l[j]? <;> rfl

theorem colAt_length (t : List (List α)) (i : ℕ) (h : ∀ r ∈ t, i < r.length) :
    (colAt t i).length = t.length := by
  induction t with
  | nil => rfl
  | cons r rs ih =>
    have hr : i < r.length := h r (List.mem_cons_self r rs)
    unfold colAt
    simp only [List.filterMap_cons, List.getElem?_eq_getElem hr]
    have := ih (fun x hx => h x (List.mem_cons_of_mem r hx))
    unfold colAt at this
    simp [this]

theorem colAt_getElem? (t : List (List α)) (i : ℕ) (h : ∀ r ∈ t, i < r.length) (j : ℕ) :
    (colAt t i)[j]? = (t[j]?).bind (fun r => r[i]?) := by
  induction t generalizing j with
  | nil => simp [colAt]
  | cons r rs ih =>
    have hr : i < r.length := h r (List.mem_cons_self r rs)
    unfold colAt
    simp only [List.filterMap_cons, List.getElem?_eq_getElem hr]
    cases j with
    | zero => simp [List.getElem?_eq_getElem hr]
    | succ j =>
      have := ih (fun x hx => h x (List.mem_cons_of_mem r hx)) j
      unfold colAt at this
      simpa using this

theorem transpose_concat (t : List (List α)) (a : List α) :
    transpose (t ++ [a]) = a.mapIdx (fun i v => (transpose t).getD i [] ++ [v]) := by
  unfold transpose
  rw [List.foldl_concat]

theorem transpose_eq_cols (m : ℕ) (t : List (List α)) (hne : t ≠ [])
    (hrect : ∀ r ∈ t, r.length = m) :
    transpose t = (List.range m).map (fun i => colAt t i) := by
  induction t using List.reverseRecOn with
  | nil => exact absurd rfl hne
  | append_singleton t a ih =>
    have ha : a.length = m := hrect a (by simp)
    have hgetD : ∀ j, j < m → (transpose t).getD j [] = colAt t j := by
      by_cases ht : t = []
      · subst ht
        intro j _
        simp [transpose, colAt]
      · intro j hj
        rw [ih ht (fun r hr => hrect r (by simp [hr]))]
        rw [List.getD_eq_getElem?_getD, getElem?_map_range, if_pos hj]
        rfl
    rw [transpose_concat]
    apply List.ext_getElem?
    intro j
    rw [getElem?_mapIdx, getElem?_map_range]
    by_cases hj : j < m
    · have hja : j < a.length := by omega
      rw [List.getElem?_eq_getElem hja, if_pos hj]
      simp only [Option.map_some']
      rw [hgetD j hj]
      unfold colAt
      rw [List.filterMap_append]
      simp [List.getElem?_eq_getElem hja]
    · rw [if_neg hj]
      have hlen : a.length ≤ j := by omega
      rw [List.getElem?_eq_none hlen]
      rfl

/-- C7 (amended).  For a rectangular table — every row of the same length
`m` — that is empty or has at least one column, `transpose` is an
involution.  (A non-empty table of empty rows collapses to `[]`, so the
claim fails for those; see the counterexample.) -/
theorem C7_transpose_involutive_amended (t : List (List α)) (m : ℕ)
    (hrect : ∀ r ∈ t, r.length = m) (hm : t = [] ∨ 0 < m) :
    transpose (transpose t) = t := by
  rcases eq_or_ne t [] with rfl | hne
  · rfl
  rcases hm with ht | hm0
  · exact absurd ht hne
  have hT := transpose_eq_cols m t hne hrect
  have hTrect : ∀ row ∈ transpose t, row.length = t.length := by
    rw [hT]
    intro row hrow
    rcases List.mem_map.mp hrow with ⟨i, hi, rfl⟩
    have him : i < m := List.mem_range.mp hi
    exact colAt_length t i (fun r hr => by rw [hrect r hr]; exact him)
  have hTne : transpose t ≠ [] := by
    rw [hT]
    intro hcon
    rw [List.map_eq_nil_iff, List.range_eq_nil] at hcon
    omega
  have hTT := transpose_eq_cols t.length (transpose t) hTne hTrect
  rw [hTT]
  apply List.ext_getElem?
  intro j
  rw [getElem?_map_range]
  by_cases hj : j < t.length
  · rw [if_pos hj]
    have hrowj : t[j]? = some (t.get ⟨j, hj⟩) := List.getElem?_eq_getElem hj
    have hcol : colAt (transpose t) j = t.get ⟨j, hj⟩ := by
      apply List.ext_getElem?
      intro i
      rw [colAt_getElem? (transpose t) j
        (fun row hrow => by rw [hTrect row hrow]; exact hj)]
      rw [hT, getElem?_map_range]
      by_cases hi : i < m
      · rw [if_pos hi]
        simp only [Option.some_bind]
        rw [colAt_getElem? t i (fun r hr => by rw [hrect r hr]; exact hi)]
        rw [hrowj]
        rfl
      · rw [if_neg hi]
        have hlen : (t.get ⟨j, hj⟩).length ≤ i := by
          rw [hrect (t.get ⟨j, hj⟩) (t.get_mem j hj)]
          omega
        rw [List.getElem?_eq_none hlen]
        rfl
    rw [hcol, hrowj]
  · rw [if_neg hj]
    exact (List.getElem?_eq_none (by omega)).symm

/-- C7 witness: the amended theorem on a concrete 3×2 rectangular table. -/
theorem C7_transpose_involutive_witness :
    transpose (transpose ([[1, 2], [3, 4], [5, 6]] : List (List ℕ)))
      = [[1, 2], [3, 4], [5, 6]] :=
  C7_transpose_involutive_amended [[1, 2], [3, 4], [5, 6]] 2 (by decide)
    (Or.inr (by decide))

/-- C7 counterexample.  The table `[[]]` (one empty row) is a 2D array,
but `transpose (transpose [[]]) = [] ≠ [[]]`: double transpose is not the
identity on tables containing empty rows. -/
theorem C7_transpose_involutive_cex :
    transpose (transpose ([[]] : List (List ℕ))) ≠ [[]] := by
  decide

/-! ## Scatter-fold lemmas for the column shuffles -/

theorem jsSet_length (l : List (Option β)) (i : ℕ) (v : Option β) (h : i < l.length) :
    (jsSet l i v).length = l.length := by
  unfold jsSet
  rw [if_pos h]
  exact List.length_set l i v

theorem jsSet_getElem?_self (l : List (Option β)) (i : ℕ) (v : Option β)
    (h : i < l.length) : (jsSet l i v)[i]? = some v := by
  unfold jsSet
  rw [if_pos h, List.getElem?_set, if_pos rfl, if_pos h]

theorem jsSet_getElem?_ne (l : List (Option β)) (i : ℕ) (v : Option β)
    (h : i < l.length) (j : ℕ) (hij : i ≠ j) : (jsSet l i v)[j]? = l[j]? := by
  unfold jsSet
  rw [if_pos h, List.getElem?_set]
  simp [hij]

theorem scatter_length (A : List (ℕ × Option β)) :
    ∀ (init : List (Option β)), (∀ p ∈ A, p.1 < init.length) →
      (A.foldl (fun no p => jsSet no p.1 p.2) init).length = init.length := by
  induction A with
  | nil => intro init _; rfl
  | cons a rest ih =>
    intro init h
    have ha := h a (List.mem_cons_self a rest)
    simp only [List.foldl_cons]
    rw [ih (jsSet init a.1 a.2) (fun p hp => by
      rw [jsSet_length _ _ _ ha]
      exact h p (List.mem_cons_of_mem a hp))]
    exact jsSet_length _ _ _ ha

theorem scatter_getElem?_of_not_mem (A : List (ℕ × Option β)) :
    ∀ (init : List (Option β)) (s : ℕ), (∀ p ∈ A, p.1 < init.length) →
      s ∉ A.map Prod.fst →
      (A.foldl (fun no p => jsSet no p.1 p.2) init)[s]? = init[s]? := by
  induction A with
  | nil => intro init s _ _; rfl
  | cons a rest ih =>
    intro init s h hs
    have ha := h a (List.mem_cons_self a rest)
    have hs' : s ∉ rest.map Prod.fst := fun hc => hs (by simp [hc])
    have hne : a.1 ≠ s := fun e => hs (by simp [e])
    simp only [List.foldl_cons]
    rw [ih (jsSet init a.1 a.2) s (fun p hp => by
      rw [jsSet_length _ _ _ ha]
      exact h p (List.mem_cons_of_mem a hp)) hs']
    exact jsSet_getElem?_ne init a.1 a.2 ha s hne

theorem scatter_getElem?_of_mem (A : List (ℕ × Option β)) :
    ∀ (init : List (Option β)) (s : ℕ) (v : Option β),
      (∀ p ∈ A, p.1 < init.length) → (A.map Prod.fst).Nodup → (s, v) ∈ A →
      (A.foldl (fun no p => jsSet no p.1 p.2) init)[s]? = some v := by
  induction A with
  | nil => intro init s v _ _ hm; simp at hm
  | cons a rest ih =>
    intro init s v h hnd hm
    have ha := h a (List.mem_cons_self a rest)
    have hbnd : ∀ p ∈ rest, p.1 < (jsSet init a.1 a.2).length := fun p hp => by
      rw [jsSet_length _ _ _ ha]
      exact h p (List.mem_cons_of_mem a hp)
    simp only [List.map_cons, List.nodup_cons] at hnd
    simp only [List.foldl_cons]
    rcases List.mem_cons.mp hm with heq | hm'
    · have hs1 : a.1 = s := by rw [← heq]
      have hs2 : a.2 = v := by rw [← heq]
      subst hs1 hs2
      have hnm : a.1 ∉ rest.map Prod.fst := hnd.1
      rw [scatter_getElem?_of_not_mem rest (jsSet init a.1 a.2) a.1 hbnd hnm]
      exact jsSet_getElem?_self init a.1 a.2 ha
    · exact ih (jsSet init a.1 a.2) s v hbnd hnd.2 hm'

/-! ## findIdx? and Nodup helpers -/

theorem findIdx?_some_of_mem (p : α → Bool) (l : List α) (x : α)
    (hx : x ∈ l) (hp : p x = true) : ∃ q, l.findIdx? p = some q := by
  have h : (l.findIdx? p).isSome = true := by
    rw [List.findIdx?_isSome]
    exact List.any_eq_true.mpr ⟨x, hx, hp⟩
  exact Option.isSome_iff_exists.mp h

theorem findIdx?_found (p : α → Bool) (l : List α) (q : ℕ)
    (h : l.findIdx? p = some q) : ∃ x, l[q]? = some x ∧ p x = true := by
  obtain ⟨hq, hfi⟩ := List.findIdx?_eq_some_iff_findIdx_eq.mp h
  subst hfi
  exact ⟨l[l.findIdx p], List.getElem?_eq_getElem hq, @List.findIdx_getElem _ p l hq⟩

theorem nodup_getElem?_ne (l : List α) (h : l.Nodup) :
    ∀ (i j : ℕ), i ≠ j → ∀ (x y : α), l[i]? = some x → l[j]? = some y → x ≠ y := by
  induction l with
  | nil => intro i j _ x y hx; simp at hx
  | cons a rest ih =>
    simp only [List.nodup_cons] at h
    intro i j hij x y hx hy
    cases i with
    | zero =>
      cases j with
      | zero => exact absurd rfl hij
      | succ j =>
        simp only [List.getElem?_cons_zero, Option.some.injEq] at hx
        simp only [List.getElem?_cons_succ] at hy
        subst hx
        intro hxy
        exact h.1 (hxy ▸ List.mem_iff_getElem?.mpr ⟨j, hy⟩)
    | succ i =>
      cases j with
      | zero =>
        simp only [List.getElem?_cons_zero, Option.some.injEq] at hy
        simp only [List.getElem?_cons_succ] at hx
        subst hy
        intro hxy
        exact h.1 (hxy ▸ List.mem_iff_getElem?.mpr ⟨i, hx⟩)
      | succ j =>
        simp only [List.getElem?_cons_succ] at hx hy
        exact ih h.2 i j (by omega) x y hx hy

theorem nodup_getElem?_inj (l : List α) (h : l.Nodup) (i j : ℕ) (x : α)
    (hi : l[i]? = some x) (hj : l[j]? = some x) : i = j := by
  by_contra hij
  exact nodup_getElem?_ne l h i j hij x x hi hj rfl

theorem nodup_of_getElem?_inj (l : List α)
    (h : ∀ (i j : ℕ) (x : α), l[i]? = some x → l[j]? = some x → i = j) : l.Nodup := by
  induction l with
  | nil => exact List.nodup_nil
  | cons a rest ih =>
    rw [List.nodup_cons]
    constructor
    · intro hmem
      rcases List.mem_iff_getElem?.mp hmem with ⟨k, hk⟩
      have : (0 : ℕ) = k + 1 := h 0 (k + 1) a (by simp) (by simpa using hk)
      omega
    · exact ih (fun i j x hi hj => by
        have := h (i + 1) (j + 1) x (by simpa using hi) (by simpa using hj)
        omega)

/-! ## shuffleColumns: characterisation under well-formedness -/

theorem shuffle_fold_eq_scatter (newOrder : List ℕ) (original : List (List α))
    (nh : List α) (init : List (Option (List α))) :
    (((0 : ℕ) :: newOrder).enum.foldl (fun no p =>
        if p.1 = 0 then jsSet no 0 (some nh) else jsSet no p.2 (original[p.1]?)) init)
    = (((0, some nh) : ℕ × Option (List α)) ::
        (newOrder.enumFrom 1).map (fun q => (q.2, original[q.1]?))).foldl
        (fun no p => jsSet no p.1 p.2) init := by
  rw [List.enum_cons, List.foldl_cons, List.foldl_cons, List.foldl_map]
  have hstep : ∀ (b : List (Option (List α))) (p : ℕ × ℕ), p ∈ newOrder.enumFrom 1 →
      (if p.1 = 0 then jsSet b 0 (some nh) else jsSet b p.2 (original[p.1]?))
        = jsSet b p.2 (original[p.1]?) := by
    intro b p hp
    rcases List.mem_iff_getElem?.mp hp with ⟨m, hm⟩
    rw [List.getElem?_enumFrom] at hm
    have hp1 : p.1 = 1 + m := by
      cases hno : newOrder[m]? with
      | none => rw [hno] at hm; cases hm
      | some o =>
        rw [hno] at hm
        cases hm
        rfl
    rw [if_neg (by omega)]
  exact List.foldl_ext _ _ _ hstep

theorem enumFrom_map_snd (l : List α) : ∀ (n : ℕ), (l.enumFrom n).map Prod.snd = l := by
  induction l with
  | nil => intro n; rfl
  | cons a rest ih =>
    intro n
    rw [List.enumFrom_cons, List.map_cons, ih (n + 1)]

/-- The shuffled-table characterisation: on a well-formed column-major
table with pairwise-distinct headers, and a shuffled tail that is a
permutation of the non-identity headers, `shuffleColumns` fills every
slot: slot 0 holds the new header row `h0 :: st`, and for every header
value `h`, the column that sat under `h` in the input sits under `h` in
the output. -/
theorem shuffleColumns_spec [DecidableEq α] (h0 : α) (htail : List α)
    (cols : List (List α)) (st : List α)
    (hnd : (h0 :: htail).Nodup) (hlen : cols.length = htail.length + 1)
    (hperm : st.Perm htail) :
    (shuffleColumns ((h0 :: htail) :: cols) st).length = cols.length + 1 ∧
    (shuffleColumns ((h0 :: htail) :: cols) st)[0]? = some (some (h0 :: st)) ∧
    (∀ (q j : ℕ) (h : α), (h0 :: st)[q]? = some h → (h0 :: htail)[j]? = some h →
      (shuffleColumns ((h0 :: htail) :: cols) st)[q + 1]? = some (cols[j]?)) := by
  have hperm2 : (h0 :: st).Perm (h0 :: htail) := hperm.cons h0
  have hnhnd : (h0 :: st).Nodup := hperm2.nodup_iff.mpr hnd
  -- the newOrder entry for each header position
  have hNO : ∀ (j : ℕ), j < (h0 :: htail).length →
      ∃ q, q < (h0 :: st).length ∧
        (∀ (h : α), (h0 :: htail)[j]? = some h → (h0 :: st)[q]? = some h) ∧
        ((h0 :: htail).map (fun h => (((h0 :: st).findIdx? (fun h2 => h = h2)).map
          (fun i => i + 1)).getD 0))[j]? = some (q + 1) := by
    intro j hj
    have hmem : (h0 :: htail)[j] ∈ (h0 :: st) :=
      hperm2.mem_iff.mpr (List.getElem_mem hj)
    obtain ⟨q, hq⟩ := findIdx?_some_of_mem
      (fun h2 => decide ((h0 :: htail)[j] = h2)) _ _ hmem (by simp)
    obtain ⟨x, hxq, hpx⟩ := findIdx?_found _ _ _ hq
    have hx : x = (h0 :: htail)[j] := by
      simp only [decide_eq_true_eq] at hpx
      exact hpx.symm
    have hqlt : q < (h0 :: st).length := by
      rcases List.getElem?_eq_some.mp hxq with ⟨hlt, _⟩
      exact hlt
    refine ⟨q, hqlt, ?_, ?_⟩
    · intro h hh
      rw [List.getElem?_eq_getElem hj] at hh
      cases hh
      rw [hxq, hx]
    · rw [List.getElem?_map, List.getElem?_eq_getElem hj]
      simp only [Option.map_some']
      rw [hq]
      rfl
  -- rewrite the shuffle as a scatter fold
  have hdef : shuffleColumns ((h0 :: htail) :: cols) st
      = (((0 : ℕ) :: ((h0 :: htail).map (fun h =>
          (((h0 :: st).findIdx? (fun h2 => h = h2)).map (fun i => i + 1)).getD 0))).enum).foldl
          (fun no p => if p.1 = 0 then jsSet no 0 (some (h0 :: st))
            else jsSet no p.2 (((h0 :: htail) :: cols)[p.1]?))
          (List.replicate (cols.length + 1) none) := rfl
  rw [hdef, shuffle_fold_eq_scatter]
  -- each newOrder value is a successor slot with the matching column
  have hvals : ∀ (m : ℕ) (o : ℕ), ((h0 :: htail).map (fun h =>
      (((h0 :: st).findIdx? (fun h2 => h = h2)).map (fun i => i + 1)).getD 0))[m]? = some o →
      ∃ q, q < (h0 :: st).length ∧ o = q + 1 ∧
        (∀ (h : α), (h0 :: htail)[m]? = some h → (h0 :: st)[q]? = some h) := by
    intro m o hm
    have hmlt : m < (h0 :: htail).length := by
      rcases List.getElem?_eq_some.mp hm with ⟨hlt, _⟩
      rw [List.length_map] at hlt
      exact hlt
    obtain ⟨q, hqlt, hval, hNOm⟩ := hNO m hmlt
    rw [hNOm] at hm
    cases hm
    exact ⟨q, hqlt, rfl, hval⟩
  -- bounds for the scatter
  have hbounds : ∀ p ∈ (((0, some (h0 :: st)) : ℕ × Option (List α)) ::
      ((((h0 :: htail).map (fun h => (((h0 :: st).findIdx? (fun h2 => h = h2)).map
        (fun i => i + 1)).getD 0)).enumFrom 1).map
        (fun q => (q.2, ((h0 :: htail) :: cols)[q.1]?)))),
      p.1 < (List.replicate (cols.length + 1) (none : Option (List α))).length := by
    intro p hp
    rw [List.length_replicate]
    rcases List.mem_cons.mp hp with rfl | hp'
    · omega
    · rcases List.mem_map.mp hp' with ⟨q, hq, rfl⟩
      rcases List.mem_iff_getElem?.mp hq with ⟨m, hm⟩
      rw [List.getElem?_enumFrom] at hm
      cases hno : ((h0 :: htail).map (fun h => (((h0 :: st).findIdx? (fun h2 => h = h2)).map
          (fun i => i + 1)).getD 0))[m]? with
      | none => rw [hno] at hm; cases hm
      | some o =>
        rw [hno] at hm
        cases hm
        obtain ⟨q', hq'lt, rfl, _⟩ := hvals m o hno
        have : (h0 :: st).length = htail.length + 1 := by
          simp [hperm.length_eq]
        simp only
        omega
  -- the scatter targets are pairwise distinct
  have hfst : ((((0, some (h0 :: st)) : ℕ × Option (List α)) ::
      ((((h0 :: htail).map (fun h => (((h0 :: st).findIdx? (fun h2 => h = h2)).map
        (fun i => i + 1)).getD 0)).enumFrom 1).map
        (fun q => (q.2, ((h0 :: htail) :: cols)[q.1]?)))).map Prod.fst)
      = 0 :: ((h0 :: htail).map (fun h => (((h0 :: st).findIdx? (fun h2 => h = h2)).map
        (fun i => i + 1)).getD 0)) := by
    rw [List.map_cons, List.map_map]
    congr 1
    have hcomp : (Prod.fst ∘ fun (q : ℕ × ℕ) => ((q.2 : ℕ), ((h0 :: htail) :: cols)[q.1]?))
        = Prod.snd := rfl
    rw [hcomp, enumFrom_map_snd]
  have hnodup : ((((0, some (h0 :: st)) : ℕ × Option (List α)) ::
      ((((h0 :: htail).map (fun h => (((h0 :: st).findIdx? (fun h2 => h = h2)).map
        (fun i => i + 1)).getD 0)).enumFrom 1).map
        (fun q => (q.2, ((h0 :: htail) :: cols)[q.1]?)))).map Prod.fst).Nodup := by
    rw [hfst, List.nodup_cons]
    constructor
    · intro hc
      rcases List.mem_iff_getElem?.mp hc with ⟨m, hm⟩
      obtain ⟨q, _, hq1, _⟩ := hvals m 0 hm
      omega
    · apply nodup_of_getElem?_inj
      intro i j x hi hj
      obtain ⟨qi, hqilt, hqi, hvi⟩ := hvals i x hi
      obtain ⟨qj, hqjlt, hqj, hvj⟩ := hvals j x hj
      have hqq : qi = qj := by omega
      subst hqq
      have hilt : i < (h0 :: htail).length := by
        rcases List.getElem?_eq_some.mp hi with ⟨hlt, _⟩
        rw [List.length_map] at hlt
        exact hlt
      have hjlt : j < (h0 :: htail).length := by
        rcases List.getElem?_eq_some.mp hj with ⟨hlt, _⟩
        rw [List.length_map] at hlt
        exact hlt
      have hvi' : (h0 :: st)[qi]? = some ((h0 :: htail)[i]) :=
        hvi _ (List.getElem?_eq_getElem hilt)
      have hvj' : (h0 :: st)[qi]? = some ((h0 :: htail)[j]) :=
        hvj _ (List.getElem?_eq_getElem hjlt)
      have heq : (h0 :: htail)[i] = (h0 :: htail)[j] := by
        rw [hvi'] at hvj'
        exact Option.some.inj hvj'
      exact nodup_getElem?_inj _ hnd i j ((h0 :: htail)[j])
        (by rw [List.getElem?_eq_getElem hilt, heq])
        (List.getElem?_eq_getElem hjlt)
  refine ⟨?_, ?_, ?_⟩
  · rw [scatter_length _ _ hbounds]
    exact List.length_replicate _ _
  · exact scatter_getElem?_of_mem _ _ _ _ hbounds hnodup (List.mem_cons_self _ _)
  · intro q j h hq hj
    have hjlt : j < (h0 :: htail).length := by
      rcases List.getElem?_eq_some.mp hj with ⟨hlt, _⟩
      exact hlt
    obtain ⟨q', hq'lt, hval, hNOj⟩ := hNO j hjlt
    have hq'q : q' = q :=
      nodup_getElem?_inj _ hnhnd q' q h (hval h hj) hq
    subst hq'q
    -- the pair (q' + 1, cols[j]?) is one of the scatter assignments
    have henum : (((h0 :: htail).map (fun h => (((h0 :: st).findIdx? (fun h2 => h = h2)).map
        (fun i => i + 1)).getD 0)).enumFrom 1)[j]? = some (1 + j, q' + 1) := by
      rw [List.getElem?_enumFrom, hNOj]
      rfl
    have hmem1 : ((1 + j, q' + 1) : ℕ × ℕ) ∈ (((h0 :: htail).map
        (fun h => (((h0 :: st).findIdx? (fun h2 => h = h2)).map
        (fun i => i + 1)).getD 0)).enumFrom 1) :=
      List.mem_iff_getElem?.mpr ⟨j, henum⟩
    have hmem2 : ((q' + 1, cols[j]?) : ℕ × Option (List α)) ∈
        ((((h0 :: htail).map (fun h => (((h0 :: st).findIdx? (fun h2 => h = h2)).map
          (fun i => i + 1)).getD 0)).enumFrom 1).map
          (fun q => (q.2, ((h0 :: htail) :: cols)[q.1]?))) := by
      have := List.mem_map_of_mem
        (fun (q : ℕ × ℕ) => ((q.2 : ℕ), ((h0 :: htail) :: cols)[q.1]?)) hmem1
      have harith : (1 + j : ℕ) = j + 1 := by omega
      simpa [harith] using this
    exact scatter_getElem?_of_mem _ _ _ _ hbounds hnodup
      (List.mem_cons_of_mem _ hmem2)

/-! ## C6: column reorder -/

/-- C6.  On a column-major table with pairwise-distinct headers, and with
the random sort producing a permutation `st` of the non-identity headers:
the shuffled table's header row `h0 :: st` is a permutation of the
original header row; the first column's header and its value column are
unchanged in position and content; and for every header value the value
column positioned under it in the output is the value column under it in
the input (headers and values move together). -/
theorem C6_column_reorder [DecidableEq α] (h0 : α) (htail : List α)
    (cols : List (List α)) (st : List α)
    (hnd : (h0 :: htail).Nodup) (hlen : cols.length = htail.length + 1)
    (hperm : st.Perm htail) :
    (h0 :: st).Perm (h0 :: htail) ∧
    (shuffleColumns ((h0 :: htail) :: cols) st)[0]? = some (some (h0 :: st)) ∧
    (h0 :: st)[0]? = (h0 :: htail)[0]? ∧
    (shuffleColumns ((h0 :: htail) :: cols) st)[1]? = some (cols[0]?) ∧
    (∀ (q j : ℕ) (h : α), (h0 :: st)[q]? = some h → (h0 :: htail)[j]? = some h →
      (shuffleColumns ((h0 :: htail) :: cols) st)[q + 1]? = some (cols[j]?)) := by
  obtain ⟨hL, h0slot, hcolumns⟩ := shuffleColumns_spec h0 htail cols st hnd hlen hperm
  refine ⟨hperm.cons h0, h0slot, by simp, ?_, hcolumns⟩
  have := hcolumns 0 0 h0 (by simp) (by simp)
  simpa using this

/-- C6 witness: a concrete 3-column table (identity column "A") whose
tail headers are reversed by the shuffle. -/
theorem C6_column_reorder_witness :
    (("A" :: ["C", "B"]).Perm ("A" :: ["B", "C"])) ∧
    (shuffleColumns (("A" :: ["B", "C"]) :: [["a"], ["b"], ["c"]]) ["C", "B"])[0]?
      = some (some ("A" :: ["C", "B"])) ∧
    ("A" :: ["C", "B"])[0]? = ("A" :: ["B", "C"])[0]? ∧
    (shuffleColumns (("A" :: ["B", "C"]) :: [["a"], ["b"], ["c"]]) ["C", "B"])[1]?
      = some ([["a"], ["b"], ["c"]][0]?) ∧
    (∀ (q j : ℕ) (h : String), ("A" :: ["C", "B"])[q]? = some h →
      ("A" :: ["B", "C"])[j]? = some h →
      (shuffleColumns (("A" :: ["B", "C"]) :: [["a"], ["b"], ["c"]]) ["C", "B"])[q + 1]?
        = some ([["a"], ["b"], ["c"]][j]?)) :=
  C6_column_reorder "A" ["B", "C"] [["a"], ["b"], ["c"]] ["C", "B"]
    (by decide) (by decide) (by decide)

/-! ## mangleColumns: characterisation -/

theorem foldl_jsSet_range (G : ℕ → Option β) (n : ℕ) :
    ((List.range n).foldl (fun t i => jsSet t i (G i)) []).length = n ∧
    ∀ i, i < n → ((List.range n).foldl (fun t i => jsSet t i (G i)) [])[i]? = some (G i) := by
  induction n with
  | zero => exact ⟨rfl, fun i hi => absurd hi (by omega)⟩
  | succ n ih =>
    rw [List.range_succ, List.foldl_append, List.foldl_cons, List.foldl_nil]
    have hlen := ih.1
    have hset : ∀ (acc : List (Option β)), acc.length = n →
        jsSet acc n (G n) = acc ++ [G n] := by
      intro acc hacc
      unfold jsSet
      rw [if_neg (by omega), hacc]
      simp
    rw [hset _ hlen]
    refine ⟨by rw [List.length_append, hlen]; rfl, ?_⟩
    intro i hi
    by_cases hin : i < n
    · rw [List.getElem?_append_left (by omega)]
      exact ih.2 i hin
    · have hieq : i = n := by omega
      subst hieq
      rw [List.getElem?_append_right (by omega)]
      rw [hlen]
      simp

theorem mangleColumns_eq_fold (pc : String → String) (showNum : ℚ → String)
    (epochOf : JsVal → ℚ) (localeOf : JsVal → String)
    (table : List (List JsVal)) (cols : List String) (ty : String)
    (rand rand2 : ℕ → ℕ → ℚ) (F : ℕ → List JsVal → List JsVal)
    (hF : (ty = "float" ∧ F = fun i col =>
            col.mapIdx (fun k v => maybeAddSmallValueV showNum v (rand i k) (rand2 i k))) ∨
          (ty = "date" ∧ F = fun i col =>
            col.mapIdx (fun k v => maybeMangleDate epochOf localeOf v (rand i k))) ∨
          (ty = "geo" ∧ F = fun i col =>
            col.mapIdx (fun k v => maybeMangleGeoV showNum v (rand i k) (rand2 i k)))) :
    mangleColumns pc showNum epochOf localeOf table cols ty rand rand2
      = (List.range table.length).foldl (fun t i => jsSet t i
          (if i ∈ mangleColumnsIndices pc table cols then (table[i]?).map (F i)
           else table[i]?)) [] := by
  unfold mangleColumns
  apply List.foldl_ext
  intro acc i _
  rcases hF with ⟨hty, hFe⟩ | ⟨hty, hFe⟩ | ⟨hty, hFe⟩ <;> subst hty <;> subst hFe <;>
    by_cases hin : i ∈ mangleColumnsIndices pc table cols <;>
    simp [hin, show ("date" : String) ≠ "float" by decide,
      show ("geo" : String) ≠ "float" by decide,
      show ("geo" : String) ≠ "date" by decide]

theorem mangleColumns_spec (pc : String → String) (showNum : ℚ → String)
    (epochOf : JsVal → ℚ) (localeOf : JsVal → String)
    (table : List (List JsVal)) (cols : List String) (ty : String)
    (rand rand2 : ℕ → ℕ → ℚ) (F : ℕ → List JsVal → List JsVal)
    (hF : (ty = "float" ∧ F = fun i col =>
            col.mapIdx (fun k v => maybeAddSmallValueV showNum v (rand i k) (rand2 i k))) ∨
          (ty = "date" ∧ F = fun i col =>
            col.mapIdx (fun k v => maybeMangleDate epochOf localeOf v (rand i k))) ∨
          (ty = "geo" ∧ F = fun i col =>
            col.mapIdx (fun k v => maybeMangleGeoV showNum v (rand i k) (rand2 i k)))) :
    (mangleColumns pc showNum epochOf localeOf table cols ty rand rand2).length
      = table.length ∧
    ∀ i, i < table.length →
      (mangleColumns pc showNum epochOf localeOf table cols ty rand rand2)[i]?
        = some (if i ∈ mangleColumnsIndices pc table cols then (table[i]?).map (F i)
                else table[i]?) := by
  rw [mangleColumns_eq_fold pc showNum epochOf localeOf table cols ty rand rand2 F hF]
  exact ⟨(foldl_jsSet_range _ _).1, fun i hi => (foldl_jsSet_range _ _).2 i hi⟩

theorem mangleColumns_frame (pc : String → String) (showNum : ℚ → String)
    (epochOf : JsVal → ℚ) (localeOf : JsVal → String)
    (table : List (List JsVal)) (cols : List String) (ty : String)
    (rand rand2 : ℕ → ℕ → ℚ) (F : ℕ → List JsVal → List JsVal)
    (hF : (ty = "float" ∧ F = fun i col =>
            col.mapIdx (fun k v => maybeAddSmallValueV showNum v (rand i k) (rand2 i k))) ∨
          (ty = "date" ∧ F = fun i col =>
            col.mapIdx (fun k v => maybeMangleDate epochOf localeOf v (rand i k))) ∨
          (ty = "geo" ∧ F = fun i col =>
            col.mapIdx (fun k v => maybeMangleGeoV showNum v (rand i k) (rand2 i k)))) :
    (mangleColumns pc showNum epochOf localeOf table cols ty rand rand2).length
      = table.length ∧
    ∀ (i : ℕ) (row : List JsVal), table[i]? = some row →
      ∃ row', (mangleColumns pc showNum epochOf localeOf table cols ty rand rand2)[i]?
          = some (some row') ∧ (row' = row ∨ row' = F i row) := by
  obtain ⟨hL, hsl⟩ := mangleColumns_spec pc showNum epochOf localeOf table cols ty rand rand2 F hF
  refine ⟨hL, fun i row hrow => ?_⟩
  have hi : i < table.length := by
    rcases List.getElem?_eq_some.mp hrow with ⟨hlt, _⟩
    exact hlt
  by_cases hin : i ∈ mangleColumnsIndices pc table cols
  · refine ⟨F i row, ?_, Or.inr rfl⟩
    rw [hsl i hi, if_pos hin, hrow]
    rfl
  · refine ⟨row, ?_, Or.inl rfl⟩
    rw [hsl i hi, if_neg hin, hrow]

/-! ## C8: frame properties of the perturbation operators -/

/-- C8.  Each perturbation operator — float jitter, date mangle, geo
mangle (`mangleColumns` with the three type tags), column-name mangling
(`mangleColumnNames`), and column reorder (`shuffleColumns`) — keeps the
number of rows of the column-major table, keeps the length of every value
column, and never permutes values within a column: each output cell is
the same-position input cell, possibly transformed; the name mangler only
rewrites the header row; the reorder moves whole columns (header and
values together).  The reorder conjunct assumes a well-formed table:
distinct headers, one value column per header, and a shuffled tail that
is a permutation of the non-identity headers. -/
theorem C8_operators_frame (pc sc : String → String) (showNum : ℚ → String)
    (epochOf : JsVal → ℚ) (localeOf : JsVal → String)
    (headers : List JsVal) (cols : List (List JsVal))
    (colsF colsD colsG colsN : List String) (spec : List ColSpec)
    (randF randF2 randD randG randG2 : ℕ → ℕ → ℚ) (randN : ℕ → ℚ)
    (st : List JsVal) :
    ((mangleColumns pc showNum epochOf localeOf (headers :: cols) colsF "float"
        randF randF2).length = (headers :: cols).length ∧
      ∀ (i : ℕ) (row : List JsVal), (headers :: cols)[i]? = some row →
        ∃ row', (mangleColumns pc showNum epochOf localeOf (headers :: cols) colsF "float"
            randF randF2)[i]? = some (some row') ∧ row'.length = row.length ∧
          ∀ (k : ℕ) (v : JsVal), row[k]? = some v →
            row'[k]? = some v ∨
              row'[k]? = some (maybeAddSmallValueV showNum v (randF i k) (randF2 i k))) ∧
    ((mangleColumns pc showNum epochOf localeOf (headers :: cols) colsD "date"
        randD randD).length = (headers :: cols).length ∧
      ∀ (i : ℕ) (row : List JsVal), (headers :: cols)[i]? = some row →
        ∃ row', (mangleColumns pc showNum epochOf localeOf (headers :: cols) colsD "date"
            randD randD)[i]? = some (some row') ∧ row'.length = row.length ∧
          ∀ (k : ℕ) (v : JsVal), row[k]? = some v →
            row'[k]? = some v ∨
              row'[k]? = some (maybeMangleDate epochOf localeOf v (randD i k))) ∧
    ((mangleColumns pc showNum epochOf localeOf (headers :: cols) colsG "geo"
        randG randG2).length = (headers :: cols).length ∧
      ∀ (i : ℕ) (row : List JsVal), (headers :: cols)[i]? = some row →
        ∃ row', (mangleColumns pc showNum epochOf localeOf (headers :: cols) colsG "geo"
            randG randG2)[i]? = some (some row') ∧ row'.length = row.length ∧
          ∀ (k : ℕ) (v : JsVal), row[k]? = some v →
            row'[k]? = some v ∨
              row'[k]? = some (maybeMangleGeoV showNum v (randG i k) (randG2 i k))) ∧
    (∀ t', mangleColumnNames pc sc (headers :: cols) colsN spec randN = some t' →
      t'.length = (headers :: cols).length ∧ t'.drop 1 = cols ∧
      ∀ r0, t'[0]? = some r0 → r0.length = headers.length) ∧
    (headers.Nodup → cols.length = headers.length → st.Perm (headers.drop 1) →
      headers ≠ [] →
      (shuffleColumns (headers :: cols) st).length = (headers :: cols).length ∧
      (shuffleColumns (headers :: cols) st)[0]? = some (some (headers.take 1 ++ st)) ∧
      (headers.take 1 ++ st).Perm headers ∧
      (∀ (q : ℕ), q < cols.length →
        ∃ (j : ℕ) (col : List JsVal), cols[j]? = some col ∧
          (shuffleColumns (headers :: cols) st)[q + 1]? = some (some col))) := by
  have hcell : ∀ (g : ℕ → ℕ → JsVal → JsVal) (i : ℕ) (row row' : List JsVal),
      (row' = row ∨ row' = row.mapIdx (fun k v => g i k v)) →
      row'.length = row.length ∧
      ∀ (k : ℕ) (v : JsVal), row[k]? = some v →
        row'[k]? = some v ∨ row'[k]? = some (g i k v) := by
    intro g i row row' hd
    rcases hd with rfl | rfl
    · exact ⟨rfl, fun k v hv => Or.inl hv⟩
    · refine ⟨List.length_mapIdx, fun k v hv => Or.inr ?_⟩
      rw [getElem?_mapIdx, hv]
      rfl
  refine ⟨?_, ?_, ?_, ?_, ?_⟩
  · obtain ⟨hL, hrows⟩ := mangleColumns_frame pc showNum epochOf localeOf
      (headers :: cols) colsF "float" randF randF2 _ (Or.inl ⟨rfl, rfl⟩)
    refine ⟨hL, fun i row hrow => ?_⟩
    obtain ⟨row', hslot, hd⟩ := hrows i row hrow
    obtain ⟨hlen, hcells⟩ := hcell
      (fun i k v => maybeAddSmallValueV showNum v (randF i k) (randF2 i k)) i row row' hd
    exact ⟨row', hslot, hlen, hcells⟩
  · obtain ⟨hL, hrows⟩ := mangleColumns_frame pc showNum epochOf localeOf
      (headers :: cols) colsD "date" randD randD _ (Or.inr (Or.inl ⟨rfl, rfl⟩))
    refine ⟨hL, fun i row hrow => ?_⟩
    obtain ⟨row', hslot, hd⟩ := hrows i row hrow
    obtain ⟨hlen, hcells⟩ := hcell
      (fun i k v => maybeMangleDate epochOf localeOf v (randD i k)) i row row' hd
    exact ⟨row', hslot, hlen, hcells⟩
  · obtain ⟨hL, hrows⟩ := mangleColumns_frame pc showNum epochOf localeOf
      (headers :: cols) colsG "geo" randG randG2 _ (Or.inr (Or.inr ⟨rfl, rfl⟩))
    refine ⟨hL, fun i row hrow => ?_⟩
    obtain ⟨row', hslot, hd⟩ := hrows i row hrow
    obtain ⟨hlen, hcells⟩ := hcell
      (fun i k v => maybeMangleGeoV showNum v (randG i k) (randG2 i k)) i row row' hd
    exact ⟨row', hslot, hlen, hcells⟩
  · intro t' ht'
    unfold mangleColumnNames at ht'
    simp only [List.getElem?_cons_zero] at ht'
    rcases Option.map_eq_some'.mp ht' with ⟨newRow0, hmapm, hcons⟩
    subst hcons
    refine ⟨by simp, by simp, fun r0 hr0 => ?_⟩
    simp only [List.getElem?_cons_zero, Option.some.injEq] at hr0
    subst hr0
    rw [mapM_length _ _ _ hmapm, List.enum_length]
  · intro hnd hlen hperm hne
    obtain ⟨h0, ht, rfl⟩ : ∃ h0 ht, headers = h0 :: ht := by
      cases headers with
      | nil => exact absurd rfl hne
      | cons a b => exact ⟨a, b, rfl⟩
    have hlen' : cols.length = ht.length + 1 := by simpa using hlen
    obtain ⟨hL, hslot0, hcolumns⟩ := shuffleColumns_spec h0 ht cols st hnd hlen' hperm
    refine ⟨by rw [hL]; simp, hslot0, hperm.cons h0, ?_⟩
    intro q hq
    have hqlt : q < (h0 :: st).length := by
      have : st.length = ht.length := hperm.length_eq
      simp only [List.length_cons]
      omega
    have hmem : (h0 :: st)[q] ∈ (h0 :: ht) :=
      (hperm.cons h0).mem_iff.mp (List.getElem_mem hqlt)
    rcases List.mem_iff_getElem?.mp hmem with ⟨j, hj⟩
    have hjlt : j < (h0 :: ht).length := (List.getElem?_eq_some.mp hj).1
    have hjc : j < cols.length := by
      simp only [List.length_cons] at hjlt
      omega
    refine ⟨j, cols[j], List.getElem?_eq_getElem hjc, ?_⟩
    have := hcolumns q j _ (List.getElem?_eq_getElem hqlt) hj
    rw [this, List.getElem?_eq_getElem hjc]

/-- C8 witness: the reorder conjunct of the theorem, applied to a
concrete two-column table with its hypotheses discharged. -/
theorem C8_operators_frame_witness :
    (shuffleColumns ([JsVal.str "A", JsVal.str "B"] :: [[JsVal.num 1], [JsVal.num 2]])
        [JsVal.str "B"]).length
      = ([JsVal.str "A", JsVal.str "B"] :: [[JsVal.num 1], [JsVal.num 2]]).length ∧
    (shuffleColumns ([JsVal.str "A", JsVal.str "B"] :: [[JsVal.num 1], [JsVal.num 2]])
        [JsVal.str "B"])[0]?
      = some (some ([JsVal.str "A", JsVal.str "B"].take 1 ++ [JsVal.str "B"])) ∧
    ([JsVal.str "A", JsVal.str "B"].take 1 ++ [JsVal.str "B"]).Perm
      [JsVal.str "A", JsVal.str "B"] ∧
    (∀ (q : ℕ), q < ([[JsVal.num 1], [JsVal.num 2]] : List (List JsVal)).length →
      ∃ (j : ℕ) (col : List JsVal), ([[JsVal.num 1], [JsVal.num 2]] : List (List JsVal))[j]?
          = some col ∧
        (shuffleColumns ([JsVal.str "A", JsVal.str "B"] :: [[JsVal.num 1], [JsVal.num 2]])
          [JsVal.str "B"])[q + 1]? = some (some col)) :=
  (C8_operators_frame (fun s => s) (fun s => s) (fun _ => "") (fun _ => 0) (fun _ => "")
    [JsVal.str "A", JsVal.str "B"] [[JsVal.num 1], [JsVal.num 2]]
    [] [] [] [] [] (fun _ _ => 0) (fun _ _ => 0) (fun _ _ => 0) (fun _ _ => 0)
    (fun _ _ => 0) (fun _ => 0) [JsVal.str "B"]).2.2.2.2
    (by decide) (by decide) (by decide) (by decide)

/-! ## C5: column rename -/

theorem toNat_floor_mul_lt (r : ℚ) (n : ℕ) (_h0 : 0 ≤ r) (h1 : r < 1) (hn : 0 < n) :
    Int.toNat ⌊r * (n : ℚ)⌋ < n := by
  have hfl : ⌊r * (n : ℚ)⌋ < (n : ℤ) := by
    apply Int.floor_lt.mpr
    push_cast
    calc r * (n : ℚ) < 1 * (n : ℚ) := by
          apply mul_lt_mul_of_pos_right h1
          exact_mod_cast hn
      _ = (n : ℚ) := one_mul _
  omega

theorem mapM_getElem? (f : α → Option β) (l : List α) (l' : List β)
    (h : l.mapM f = some l') : ∀ (i : ℕ), l'[i]? = (l[i]?).bind f := by
  rw [← List.mapM'_eq_mapM] at h
  induction l generalizing l' with
  | nil =>
    simp only [List.mapM'] at h
    cases h
    intro i
    simp
  | cons x xs ih =>
    cases hx : f x with
    | none => simp [List.mapM', hx] at h
    | some y =>
      cases hxs : xs.mapM' f with
      | none => simp [List.mapM', hx, hxs] at h
      | some ys =>
        simp only [List.mapM', hx, hxs, Option.bind_eq_bind, Option.some_bind,
          Option.pure_def, Option.some.injEq] at h
        subst h
        intro i
        cases i with
        | zero => simp [hx]
        | succ i => simpa using ih ys hxs i

theorem mapM_isSome (f : α → Option β) (l : List α)
    (h : ∀ p ∈ l, (f p).isSome) : ∃ l', l.mapM f = some l' := by
  rw [← List.mapM'_eq_mapM]
  induction l with
  | nil => exact ⟨[], rfl⟩
  | cons x xs ih =>
    obtain ⟨y, hy⟩ := Option.isSome_iff_exists.mp (h x (List.mem_cons_self x xs))
    obtain ⟨ys, hys⟩ := ih (fun p hp => h p (List.mem_cons_of_mem x hp))
    refine ⟨y :: ys, ?_⟩
    simp only [List.mapM', hy, hys, Option.bind_eq_bind, Option.some_bind]
    rfl

/-- C5.  For a rename request in which every requested column name has a
matching spec, `mangleColumnNames` succeeds and: data rows (column
values and positions) are untouched; header cells of non-requested
columns are unchanged; and each requested header cell becomes the
snake-cased form of the element of `{spec.name} ∪ spec.variants` selected
by the uniform draw `rand i` — never equal to the pascal-cased canonical
SOURCE header (under the hypothesis that snake-casing a candidate never
reproduces the pascal-cased name). -/
theorem C5_column_rename (pc sc : String → String) (table : List (List JsVal))
    (cols : List String) (spec : List ColSpec) (rand : ℕ → ℚ)
    (row0 : List JsVal) (h0 : table[0]? = some row0)
    (hrand : ∀ i, 0 ≤ rand i ∧ rand i < 1)
    (hspec : ∀ c ∈ cols, ∃ sp ∈ spec, pc sp.name = pc c)
    (hsc : ∀ sp ∈ spec, ∀ v ∈ sp.name :: sp.variants, sc v ≠ pc sp.name) :
    ∃ newRow0,
      mangleColumnNames pc sc table cols spec rand = some (newRow0 :: table.drop 1) ∧
      newRow0.length = row0.length ∧
      (∀ (i : ℕ) (q : ℚ), row0[i]? = some (JsVal.num q) →
        newRow0[i]? = some (JsVal.num q)) ∧
      (∀ (i : ℕ) (s : String), row0[i]? = some (JsVal.str s) → s ∉ cols.map pc →
        newRow0[i]? = some (JsVal.str s)) ∧
      (∀ (i : ℕ) (s : String), row0[i]? = some (JsVal.str s) → s ∈ cols.map pc →
        ∃ sp, spec.find? (fun x => pc x.name = s) = some sp ∧ pc sp.name = s ∧
          ∃ k, k = Int.toNat ⌊rand i * (((sp.name :: sp.variants).length : ℕ) : ℚ)⌋ ∧
            k < (sp.name :: sp.variants).length ∧
            newRow0[i]? = some (JsVal.str (sc ((sp.name :: sp.variants).getD k ""))) ∧
            JsVal.str (sc ((sp.name :: sp.variants).getD k "")) ≠ JsVal.str s) := by
  have hfind : ∀ s ∈ cols.map pc,
      ∃ sp, spec.find? (fun x => decide (pc x.name = s)) = some sp := by
    intro s hs
    rcases List.mem_map.mp hs with ⟨c, hc, hpc⟩
    obtain ⟨sp0, hsp0, hname⟩ := hspec c hc
    have hsome : (spec.find? (fun x => decide (pc x.name = s))).isSome := by
      rw [List.find?_isSome]
      exact ⟨sp0, hsp0, by simp [hname, hpc]⟩
    exact Option.isSome_iff_exists.mp hsome
  have hall : ∀ p ∈ row0.enum, (mangleHeaderCell pc sc cols spec rand p).isSome := by
    intro p _
    unfold mangleHeaderCell
    cases hp2 : p.2 with
    | num q => simp
    | str s =>
      dsimp only
      by_cases hs : s ∈ cols.map pc
      · rw [if_pos hs]
        obtain ⟨sp, hsp⟩ := hfind s hs
        rw [hsp]
        have hidx : Int.toNat ⌊rand p.1 * (((sp.name :: sp.variants).length : ℕ) : ℚ)⌋
            < (sp.name :: sp.variants).length :=
          toNat_floor_mul_lt _ _ (hrand p.1).1 (hrand p.1).2 (by simp)
        simp only
        rw [List.getElem?_eq_getElem hidx]
        simp
      · rw [if_neg hs]
        simp
  obtain ⟨newRow0, hm⟩ := mapM_isSome _ _ hall
  have hres : mangleColumnNames pc sc table cols spec rand
      = some (newRow0 :: table.drop 1) := by
    unfold mangleColumnNames
    rw [h0]
    show Option.map (fun newRow0 => newRow0 :: List.drop 1 table)
      (row0.enum.mapM (mangleHeaderCell pc sc cols spec rand))
      = some (newRow0 :: table.drop 1)
    rw [hm]
    rfl
  have hget : ∀ (i : ℕ), newRow0[i]? = ((row0[i]?).map (fun a => (i, a))).bind
      (mangleHeaderCell pc sc cols spec rand) := by
    intro i
    rw [mapM_getElem? _ _ _ hm i, List.getElem?_enum]
  refine ⟨newRow0, hres, ?_, ?_, ?_, ?_⟩
  · rw [mapM_length _ _ _ hm, List.enum_length]
  · intro i q hv
    rw [hget i, hv]
    rfl
  · intro i s hv hs
    rw [hget i, hv]
    simp only [Option.map_some', Option.some_bind]
    unfold mangleHeaderCell
    simp [hs]
  · intro i s hv hs
    obtain ⟨sp, hsp⟩ := hfind s hs
    have hname : pc sp.name = s := by
      have := List.find?_some hsp
      simpa using this
    have hidx : Int.toNat ⌊rand i * (((sp.name :: sp.variants).length : ℕ) : ℚ)⌋
        < (sp.name :: sp.variants).length :=
      toNat_floor_mul_lt _ _ (hrand i).1 (hrand i).2 (by simp)
    have hgetD : (sp.name :: sp.variants).getD
        (Int.toNat ⌊rand i * (((sp.name :: sp.variants).length : ℕ) : ℚ)⌋) ""
        = (sp.name :: sp.variants)[Int.toNat
            ⌊rand i * (((sp.name :: sp.variants).length : ℕ) : ℚ)⌋] := by
      rw [List.getD_eq_getElem?_getD, List.getElem?_eq_getElem hidx]
      rfl
    have hmem : (sp.name :: sp.variants).getD
        (Int.toNat ⌊rand i * (((sp.name :: sp.variants).length : ℕ) : ℚ)⌋) ""
        ∈ sp.name :: sp.variants := by
      rw [hgetD]
      exact List.getElem_mem hidx
    refine ⟨sp, hsp, hname, _, rfl, hidx, ?_, ?_⟩
    · rw [hget i, hv]
      simp only [Option.map_some', Option.some_bind]
      unfold mangleHeaderCell
      dsimp only
      rw [if_pos hs, hsp]
      simp only
      rw [List.getElem?_eq_getElem hidx, hgetD]
      rfl
    · intro hc
      have : sc ((sp.name :: sp.variants).getD
          (Int.toNat ⌊rand i * (((sp.name :: sp.variants).length : ℕ) : ℚ)⌋) "") = s :=
        JsVal.str.inj hc
      exact hsc sp (List.mem_of_find?_eq_some hsp) _ hmem (by rw [this, hname])

/-- C5 witness: renaming the "Transaction Date" column of a concrete
table; the draw 0 selects the canonical name, snake-cased. -/
theorem C5_column_rename_witness :
    ∃ newRow0, mangleColumnNames
        (fun s => if s = "Transaction Date" then "TransactionDate" else s)
        (fun s => if s = "Transaction Date" then "transaction_date"
          else if s = "Txn Date" then "txn_date"
          else if s = "Date of Transaction" then "date_of_transaction" else s)
        [[JsVal.str "Id", JsVal.str "TransactionDate"], [JsVal.num 1, JsVal.num 2]]
        ["Transaction Date"]
        [ColSpec.mk "Transaction Date" ["Txn Date", "Date of Transaction"] false false]
        (fun _ => 0)
        = some (newRow0 :: [[JsVal.num 1, JsVal.num 2]]) := by
  obtain ⟨nr, h1, _⟩ := C5_column_rename
    (fun s => if s = "Transaction Date" then "TransactionDate" else s)
    (fun s => if s = "Transaction Date" then "transaction_date"
      else if s = "Txn Date" then "txn_date"
      else if s = "Date of Transaction" then "date_of_transaction" else s)
    [[JsVal.str "Id", JsVal.str "TransactionDate"], [JsVal.num 1, JsVal.num 2]]
    ["Transaction Date"]
    [ColSpec.mk "Transaction Date" ["Txn Date", "Date of Transaction"] false false]
    (fun _ => 0)
    [JsVal.str "Id", JsVal.str "TransactionDate"] rfl
    (fun i => ⟨le_refl 0, by norm_num⟩)
    (by decide) (by decide)
  exact ⟨nr, h1⟩

/-! ## C9: CSV serialization -/

theorem replaceFirstComma_comma (x : String) : replaceFirstComma ("," ++ x) = x := by
  show String.mk (replaceFirstCommaAux ("," ++ x).data) = x
  have hdata : ("," ++ x).data = ',' :: x.data := rfl
  rw [hdata]
  show String.mk (if ',' = ',' then x.data else ',' :: replaceFirstCommaAux x.data) = x
  rw [if_pos rfl]

theorem csvStep_of_ne_zero (showNum : ℚ → String) (n : ℕ) (acc : String) (k : ℕ)
    (v : JsVal) (hk : k ≠ 0) :
    csvStep showNum n acc (k, v)
      = if k = n - 1 then acc ++ ("," ++ csvCellText showNum v) ++ "\n"
        else acc ++ ("," ++ csvCellText showNum v) := by
  unfold csvStep
  cases v <;> simp only [csvCellText, if_neg hk]

theorem csvRow_tail (showNum : ℚ → String) (n : ℕ) :
    ∀ (cs : List JsVal) (k : ℕ) (acc : String), 1 ≤ k → k + cs.length = n →
      (cs.enumFrom k).foldl (csvStep showNum n) acc
        = acc ++ joinStrings (cs.map (fun v => "," ++ csvCellText showNum v))
            ++ (if cs = [] then "" else "\n") := by
  intro cs
  induction cs with
  | nil =>
    intro k acc _ _
    simp [joinStrings, String.append_empty]
  | cons v rest ih =>
    intro k acc hk hkn
    rw [List.enumFrom_cons, List.foldl_cons]
    rw [csvStep_of_ne_zero showNum n acc k v (by omega)]
    simp only [List.length_cons] at hkn
    cases rest with
    | nil =>
      simp only [List.length_nil] at hkn
      rw [if_pos (by omega)]
      simp [joinStrings, String.append_empty, String.append_assoc]
    | cons w ws =>
      have hkn' : k + 1 + (w :: ws).length = n := by
        simp only [List.length_cons] at hkn ⊢
        omega
      rw [if_neg (by simp only [List.length_cons] at hkn'; omega)]
      rw [ih (k + 1) _ (by omega) hkn']
      rw [if_neg (by simp)]
      simp only [List.map_cons, joinStrings]
      simp [String.append_assoc]

theorem csvRow_eq (showNum : ℚ → String) (c : JsVal) (cs : List JsVal) :
    csvRow showNum (c :: cs)
      = csvCellText showNum c ++
          joinStrings (cs.map (fun v => "," ++ csvCellText showNum v)) ++ "\n" := by
  unfold csvRow
  rw [List.enum_cons, List.foldl_cons]
  have hfirst : csvStep showNum (c :: cs).length "" (0, c)
      = if (0 : ℕ) = (c :: cs).length - 1 then csvCellText showNum c ++ "\n"
        else csvCellText showNum c := by
    unfold csvStep
    cases c <;> simp [csvCellText, replaceFirstComma_comma]
  rw [hfirst]
  cases cs with
  | nil =>
    simp [joinStrings, String.append_empty]
  | cons v rest =>
    rw [if_neg (by simp)]
    rw [csvRow_tail showNum (c :: v :: rest).length (v :: rest) 1
      (csvCellText showNum c) (by omega) (by simp only [List.length_cons]; omega)]
    rw [if_neg (by simp)]

theorem foldl_append_join (g : α → String) (l : List α) :
    ∀ (acc : String), l.foldl (fun content r => content ++ g r) acc
      = acc ++ joinStrings (l.map g) := by
  induction l with
  | nil =>
    intro acc
    simp [joinStrings, String.append_empty]
  | cons x xs ih =>
    intro acc
    rw [List.foldl_cons, ih]
    simp [joinStrings, String.append_assoc]

/-- C9.  For a row-major table whose rows each contain at least one cell,
`convertToCsv` produces exactly the text described by the spec's
`toDelimitedText` contract: per row, the cells joined by commas with no
comma before the first cell, numeric cells bare, all other cells wrapped
in double quotes, one line feed per row. -/
theorem C9_to_delimited_text (showNum : ℚ → String) (t : List (List JsVal))
    (h : ∀ row ∈ t, row ≠ []) :
    convertToCsv showNum t = toDelimitedText showNum t := by
  unfold convertToCsv toDelimitedText
  rw [foldl_append_join, String.empty_append]
  congr 1
  apply List.map_congr_left
  intro row hrow
  cases row with
  | nil => exact absurd rfl (h [] hrow)
  | cons c cs => exact csvRow_eq showNum c cs

/-- C9 witness: the theorem applied to a concrete two-row table with a
numeric and a string column. -/
theorem C9_to_delimited_text_witness :
    (∀ row ∈ ([[JsVal.num 1, JsVal.str "v"], [JsVal.num 2, JsVal.str "w"]] :
      List (List JsVal)), row ≠ []) ∧
    convertToCsv (fun _ => "1") [[JsVal.num 1, JsVal.str "v"], [JsVal.num 2, JsVal.str "w"]]
      = toDelimitedText (fun _ => "1")
          [[JsVal.num 1, JsVal.str "v"], [JsVal.num 2, JsVal.str "w"]] :=
  ⟨by decide, C9_to_delimited_text (fun _ => "1") _ (by decide)⟩

/-! ## C4: generate and the row-count post-condition -/

/-- C4 (code bug, evaluation at a failing input).  A configuration with
`sourceRowCount = 2`, `rowCountDelta = 0` and float jitter requested for
the "Transaction Amount" column: the float block of `generate` rebuilds
`target` with a `reduce` whose accumulator starts `[]` and which has no
`else` branch.  The pascal-cased header "TransactionAmount" never equals
the raw requested name, so no index matches, every column is dropped, and
`target` becomes `[]`; the subsequent `target[0]` read is `undefined` (in
this model the run yields `none` — no TARGET with `2` data rows exists,
against the claimed post-condition).  Had an index matched, `t[i].map` on
the empty accumulator would throw instead. -/
theorem C4_generate_row_counts_bug :
    generate (fun s => if s = "Transaction Amount" then "TransactionAmount" else s)
      (fun s => s) (fun v => v) (fun _ => "") (fun _ => 0) (fun _ => "")
      (fun _ _ => JsVal.str "v")
      (fun _ _ => 0) (fun _ _ => 0) (fun _ _ => 0) (fun _ _ => 0) (fun _ _ => 0)
      (fun l => l)
      (Answers.mk true 2 0 false none (some ["Transaction Amount"]) none none)
      [ColSpec.mk "Id" [] false false,
       ColSpec.mk "Transaction Amount" ["Txn Amt"] false false]
      = none := by
  rfl

end TdGen
